import Mathlib

set_option maxHeartbeats 1000000
set_option maxRecDepth 4000
set_option linter.unusedVariables false

/-! Verification development for the `oxidize-pdf-dotnet` native FFI layer
(`src/native/src/lib.rs`).  UTF-8 strings are modelled as lists of byte
values (`List Nat`); the PDF-parsing collaborator, the JSON serializer and
the raw pointers of the C ABI are modelled by explicit parameters
(`Except` results, `Option`-valued output locations). -/

/-- Bytes `0x80..0xBF` are UTF-8 continuation bytes; a position holding one
of them is not a character boundary (this is the byte test inside Rust
`str::is_char_boundary`). -/
def isCont (b : Nat) : Bool := decide (0x80 ≤ b ∧ b < 0xC0)

/-- Length of the leading run of continuation bytes of a byte list. -/
def countCont : List Nat → Nat
  | [] => 0
  | b :: r => if isCont b then countCont r + 1 else 0

/-- Rust `find_char_boundary` (lib.rs 27-38): if `index >= s.len()` return
`s.len()`; otherwise advance the index one byte at a time while it is not a
char boundary.  Position `0` and position `len` are always boundaries, and a
position `0 < i < len` is a boundary exactly when the byte at `i` is not a
continuation byte, so the `while` loop adds the length of the run of
continuation bytes starting at `index`. -/
def find_char_boundary (s : List Nat) (index : Nat) : Nat :=
  if s.length ≤ index then s.length
  else if index = 0 then 0
  else index + countCont (s.drop index)

/-- Second-byte range check of a UTF-8 sequence, per lead byte `b` (the
lead bytes `0xE0/0xED/0xF0/0xF4` restrict the second byte; all other leads
accept any continuation byte).  This is the standard `str` validity of Rust. -/
def cont2ok (b b2 : Nat) : Bool :=
  if b = 0xE0 then decide (0xA0 ≤ b2 ∧ b2 < 0xC0)
  else if b = 0xED then decide (0x80 ≤ b2 ∧ b2 < 0xA0)
  else if b = 0xF0 then decide (0x90 ≤ b2 ∧ b2 < 0xC0)
  else if b = 0xF4 then decide (0x80 ≤ b2 ∧ b2 < 0x90)
  else isCont b2

/-- Decode one UTF-8 scalar from the front of a byte list.  Returns
`some (codepoint, consumed bytes, remaining bytes)` on success, `none` if the
front is not a valid UTF-8 character (exactly Rust `str` validity: no
overlongs, no surrogates, at most U+10FFFF). -/
def decode1 : List Nat → Option (Nat × List Nat × List Nat)
  | [] => none
  | b :: rest =>
    if b < 0x80 then some (b, [b], rest)
    else if b < 0xC2 then none
    else if b < 0xE0 then
      match rest with
      | b2 :: r =>
        if isCont b2 then some ((b - 0xC0) * 0x40 + (b2 - 0x80), [b, b2], r) else none
      | [] => none
    else if b < 0xF0 then
      match rest with
      | b2 :: b3 :: r =>
        if cont2ok b b2 && isCont b3 then
          some ((b - 0xE0) * 0x1000 + (b2 - 0x80) * 0x40 + (b3 - 0x80), [b, b2, b3], r)
        else none
      | _ => none
    else if b < 0xF5 then
      match rest with
      | b2 :: b3 :: b4 :: r =>
        if cont2ok b b2 && isCont b3 && isCont b4 then
          some ((b - 0xF0) * 0x40000 + (b2 - 0x80) * 0x1000 + (b3 - 0x80) * 0x40 + (b4 - 0x80),
            [b, b2, b3, b4], r)
        else none
      | _ => none
    else none

/-- Split a byte list into UTF-8 character groups `(some codepoint, bytes)`;
a byte at which decoding fails becomes a single-byte group `(none, [b])` (such
groups never occur on the valid strings Rust hands to the chunker).  `fuel`
is a structural-recursion bound; `decode1` consumes at least one byte, so
`fuel = s.length` always suffices. -/
def utf8GroupsGo : Nat → List Nat → List (Option Nat × List Nat)
  | 0, _ => []
  | _, [] => []
  | fuel + 1, b :: rest =>
    match decode1 (b :: rest) with
    | some (c, pre, r) => (some c, pre) :: utf8GroupsGo fuel r
    | none => (none, [b]) :: utf8GroupsGo fuel rest

/-- Character groups of a byte list (see `utf8GroupsGo`). -/
def utf8Groups (s : List Nat) : List (Option Nat × List Nat) :=
  utf8GroupsGo s.length s

/-- A byte list is valid UTF-8 when every character group decoded. -/
def utf8ValidB (s : List Nat) : Bool := (utf8Groups s).all (fun g => g.1.isSome)

/-- Concatenate the bytes of a list of character groups. -/
def flattenGroups (gs : List (Option Nat × List Nat)) : List Nat :=
  (gs.map (fun g => g.2)).flatten

/-- A byte offset is a character boundary of `s` when it is the total byte
length of a prefix of `s`'s character groups. -/
def IsBoundary (s : List Nat) (i : Nat) : Prop :=
  ∃ k, i = (flattenGroups ((utf8Groups s).take k)).length

/-- Rust `char::is_whitespace` (the Unicode White_Space property), on scalar
values. -/
def isWhitespaceCp (c : Nat) : Bool :=
  decide ((9 ≤ c ∧ c ≤ 13) ∨ c = 32 ∨ c = 0x85 ∨ c = 0xA0 ∨ c = 0x1680 ∨
    (0x2000 ≤ c ∧ c ≤ 0x200A) ∨ c = 0x2028 ∨ c = 0x2029 ∨ c = 0x202F ∨
    c = 0x205F ∨ c = 0x3000)

/-- Whitespace test on a character group (an undecodable byte is never
whitespace). -/
def isWsGroup (g : Option Nat × List Nat) : Bool :=
  match g.1 with
  | some c => isWhitespaceCp c
  | none => false

/-- Drop whitespace character groups from both ends of a group list. -/
def trimGroups (gs : List (Option Nat × List Nat)) : List (Option Nat × List Nat) :=
  ((gs.dropWhile isWsGroup).reverse.dropWhile isWsGroup).reverse

/-- Rust `str::trim`: drop leading and trailing whitespace characters
(working at character granularity on the UTF-8 groups). -/
def trimBytes (s : List Nat) : List Nat := flattenGroups (trimGroups (utf8Groups s))

/-- Byte slice `s[a..b]` of Rust, as a total function on lists. -/
def sliceBytes (s : List Nat) (a b : Nat) : List Nat := (s.take b).drop a

/-- Sentence-ending bytes `'.'`, `'!'`, `'?'` (ASCII 46, 33, 63). -/
def isPunct (b : Nat) : Bool := decide (b = 46 ∨ b = 33 ∨ b = 63)

/-- Byte index of the last sentence-ending byte, if any.  This models Rust
`str::rfind(&['.', '!', '?'][..])`: those characters are ASCII, and in a
valid UTF-8 string an ASCII byte value occurs only as a whole character, so
the char-level search and the byte-level search agree on every string the
program constructs. -/
def rfindPunct : List Nat → Option Nat
  | [] => none
  | b :: r =>
    match rfindPunct r with
    | some i => some (i + 1)
    | none => if isPunct b then some 0 else none

/-- Rust `ChunkOptions` (lib.rs 65-72). -/
structure ChunkOptions where
  max_chunk_size : Nat
  overlap : Nat
  preserve_sentence_boundaries : Bool
  include_metadata : Bool
  deriving DecidableEq

/-- The default options used when the caller passes a null `options` pointer
(lib.rs 226-235 and 516-525). -/
def defaultChunkOptions : ChunkOptions :=
  { max_chunk_size := 512, overlap := 50,
    preserve_sentence_boundaries := true, include_metadata := true }

/-- Rust `DocumentChunk` (lib.rs 52-62), restricted to the fields that vary;
`confidence`, `x`, `y`, `width`, `height` are the constants 1.0 / 0.0. -/
structure DocumentChunk where
  index : Nat
  page_number : Nat
  text : List Nat
  deriving DecidableEq

/-- The per-page chunking `while` loop of `oxidize_extract_chunks`
(lib.rs 269-327).  `fuel` bounds the number of loop iterations; every call
site passes `pc.length + 1`, which can never be exhausted because an
iteration that does not break strictly increases `byte_start` (claim C2).
The final `if` mirrors `if !chunk_text.is_empty() { push }` followed by the
break test `next_start <= byte_start || chunk_end >= page_content.len()`. -/
def chunkLoopA (pc : List Nat) (o : ChunkOptions) (pn : Nat) :
    Nat → Nat → Nat → List DocumentChunk
  | 0, _, _ => []
  | fuel + 1, byte_start, chunk_index =>
    if byte_start < pc.length then
      let start := find_char_boundary pc byte_start
      if pc.length ≤ start then []
      else
        let raw_end := min (start + o.max_chunk_size) pc.length
        let endPos := find_char_boundary pc raw_end
        let chunk_end :=
          if o.preserve_sentence_boundaries ∧ endPos < pc.length then
            let raw_search_start :=
              start + min (o.max_chunk_size * 4 / 5) (endPos - start)
            let search_start := find_char_boundary pc raw_search_start
            if search_start < endPos then
              match rfindPunct (sliceBytes pc search_start endPos) with
              | some i => find_char_boundary pc (search_start + i + 1)
              | none => endPos
            else endPos
          else endPos
        let chunk_text := trimBytes (sliceBytes pc start chunk_end)
        let next_start := chunk_end - o.overlap
        if chunk_text = [] then
          if next_start ≤ byte_start ∨ pc.length ≤ chunk_end then []
          else chunkLoopA pc o pn fuel next_start chunk_index
        else
          { index := chunk_index, page_number := pn, text := chunk_text } ::
            (if next_start ≤ byte_start ∨ pc.length ≤ chunk_end then []
             else chunkLoopA pc o pn fuel next_start (chunk_index + 1))
    else []

/-- The chunking `while` loop of `oxidize_extract_chunks_from_page`
(lib.rs 562-614).  The Rust source duplicates the loop of
`oxidize_extract_chunks` token for token (with `page_number` taken from the
argument and `chunk_index` starting at 0); this is its own embedding, kept
separate so the equivalence of the two duplicated loops is a theorem
(claim C10) rather than a modelling assumption. -/
def chunkLoopB (pc : List Nat) (o : ChunkOptions) (pn : Nat) :
    Nat → Nat → Nat → List DocumentChunk
  | 0, _, _ => []
  | fuel + 1, byte_start, chunk_index =>
    if byte_start < pc.length then
      let start := find_char_boundary pc byte_start
      if pc.length ≤ start then []
      else
        let raw_end := min (start + o.max_chunk_size) pc.length
        let endPos := find_char_boundary pc raw_end
        let chunk_end :=
          if o.preserve_sentence_boundaries ∧ endPos < pc.length then
            let raw_search_start :=
              start + min (o.max_chunk_size * 4 / 5) (endPos - start)
            let search_start := find_char_boundary pc raw_search_start
            if search_start < endPos then
              match rfindPunct (sliceBytes pc search_start endPos) with
              | some i => find_char_boundary pc (search_start + i + 1)
              | none => endPos
            else endPos
          else endPos
        let chunk_text := trimBytes (sliceBytes pc start chunk_end)
        let next_start := chunk_end - o.overlap
        if chunk_text = [] then
          if next_start ≤ byte_start ∨ pc.length ≤ chunk_end then []
          else chunkLoopB pc o pn fuel next_start chunk_index
        else
          { index := chunk_index, page_number := pn, text := chunk_text } ::
            (if next_start ≤ byte_start ∨ pc.length ≤ chunk_end then []
             else chunkLoopB pc o pn fuel next_start (chunk_index + 1))
    else []

/-- Instrumented copy of the loop that records the byte span
`(start, chunk_end)` of each emitted chunk instead of its text; the lemma
`chunkLoopSpans_map_text` ties it to `chunkLoopA`.  Used to state claim C3,
which is about chunk end/start byte offsets. -/
def chunkLoopSpans (pc : List Nat) (o : ChunkOptions) :
    Nat → Nat → List (Nat × Nat)
  | 0, _ => []
  | fuel + 1, byte_start =>
    if byte_start < pc.length then
      let start := find_char_boundary pc byte_start
      if pc.length ≤ start then []
      else
        let raw_end := min (start + o.max_chunk_size) pc.length
        let endPos := find_char_boundary pc raw_end
        let chunk_end :=
          if o.preserve_sentence_boundaries ∧ endPos < pc.length then
            let raw_search_start :=
              start + min (o.max_chunk_size * 4 / 5) (endPos - start)
            let search_start := find_char_boundary pc raw_search_start
            if search_start < endPos then
              match rfindPunct (sliceBytes pc search_start endPos) with
              | some i => find_char_boundary pc (search_start + i + 1)
              | none => endPos
            else endPos
          else endPos
        let chunk_text := trimBytes (sliceBytes pc start chunk_end)
        let next_start := chunk_end - o.overlap
        if chunk_text = [] then
          if next_start ≤ byte_start ∨ pc.length ≤ chunk_end then []
          else chunkLoopSpans pc o fuel next_start
        else
          (start, chunk_end) ::
            (if next_start ≤ byte_start ∨ pc.length ≤ chunk_end then []
             else chunkLoopSpans pc o fuel next_start)
    else []

/-- Page iteration of `oxidize_extract_chunks` (lib.rs 262-328): pages are
enumerated, `page_number = page index + 1`, and one global `chunk_index` is
threaded through (each emitted chunk increments it, so after a page it has
advanced by the number of chunks that page emitted). -/
def pagesChunks (o : ChunkOptions) : List (List Nat) → Nat → Nat → List DocumentChunk
  | [], _, _ => []
  | pc :: rest, page_idx, chunk_index =>
    let cs := chunkLoopA pc o (page_idx + 1) (pc.length + 1) 0 chunk_index
    cs ++ pagesChunks o rest (page_idx + 1) (chunk_index + cs.length)

/-- Rust `ErrorCode` (lib.rs 41-49). -/
inductive ErrorCode where
  | Success
  | NullPointer
  | InvalidUtf8
  | PdfParseError
  | AllocationError
  | SerializationError
  deriving DecidableEq

/-- Model of a caller-provided output location: `isNull` says the out
pointer itself is null; `value` is the current content of the pointed-to
slot (`none` models the null sentinel written by `*out = ptr::null_mut()`;
a pre-existing `some` models whatever garbage the caller left there). -/
structure OutLoc (α : Type) where
  isNull : Bool
  value : Option α
  deriving DecidableEq

/-- Result of one FFI call: the returned status, the final content of the
output location, and the final thread-local diagnostic (`LAST_ERROR`). -/
structure CallResult (α : Type) where
  status : ErrorCode
  out : OutLoc α
  err : Option String
  deriving DecidableEq

/-- Model of `oxidize_extract_text` (lib.rs 124-191).  `parse` abstracts the
external collaborator (`PdfReader::new` + `PdfDocument::extract_text`, both
of which map failures to `PdfParseError` with a wrapped message); `err0` is
the incoming thread-local diagnostic, dead after the entry
`clear_last_error()`.  A produced C string fails `CString::new` exactly when
it contains a NUL byte. -/
def oxidize_extract_text (parse : Except String (List (List Nat)))
    (pdf_null : Bool) (pdf_len : Nat) (out : OutLoc (List Nat))
    (err0 : Option String) : CallResult (List Nat) :=
  if pdf_null || out.isNull then
    { status := .NullPointer, out := out,
      err := some "Null pointer provided to oxidize_extract_text" }
  else
    let out := { out with value := none }
    if pdf_len = 0 then
      { status := .PdfParseError, out := out,
        err := some "PDF data is empty (0 bytes)" }
    else
      match parse with
      | .error e =>
          { status := .PdfParseError, out := out,
            err := some ("Failed to parse PDF: " ++ e) }
      | .ok pages =>
          let text := List.intercalate [10, 10] pages
          if 0 ∈ text then
            { status := .InvalidUtf8, out := out,
              err := some "Text contains invalid UTF-8" }
          else
            { status := .Success, out := { out with value := some text },
              err := none }

/-- Model of `oxidize_extract_chunks` (lib.rs 201-352).  `ser` abstracts
`serde_json::to_string`. -/
def oxidize_extract_chunks (parse : Except String (List (List Nat)))
    (ser : List DocumentChunk → Except String (List Nat))
    (pdf_null : Bool) (pdf_len : Nat) (options : Option ChunkOptions)
    (out : OutLoc (List Nat)) (err0 : Option String) : CallResult (List Nat) :=
  if pdf_null || out.isNull then
    { status := .NullPointer, out := out,
      err := some "Null pointer provided to oxidize_extract_chunks" }
  else
    let out := { out with value := none }
    if pdf_len = 0 then
      { status := .PdfParseError, out := out,
        err := some "PDF data is empty (0 bytes)" }
    else
      let chunk_opts := options.getD defaultChunkOptions
      match parse with
      | .error e =>
          { status := .PdfParseError, out := out,
            err := some ("Failed to parse PDF: " ++ e) }
      | .ok pages =>
          let chunks := pagesChunks chunk_opts pages 0 0
          match ser chunks with
          | .error e =>
              { status := .SerializationError, out := out,
                err := some ("Failed to serialize chunks to JSON: " ++ e) }
          | .ok json =>
              if 0 ∈ json then
                { status := .InvalidUtf8, out := out,
                  err := some "JSON contains invalid UTF-8" }
              else
                { status := .Success, out := { out with value := some json },
                  err := none }

/-- Model of `oxidize_get_page_count` (lib.rs 361-402); the output slot is a
`usize`, pre-initialized to the empty sentinel 0. -/
def oxidize_get_page_count (parse : Except String (List (List Nat)))
    (pdf_null : Bool) (pdf_len : Nat) (out : OutLoc Nat)
    (err0 : Option String) : CallResult Nat :=
  if pdf_null || out.isNull then
    { status := .NullPointer, out := out,
      err := some "Null pointer provided to oxidize_get_page_count" }
  else
    let out := { out with value := some 0 }
    if pdf_len = 0 then
      { status := .PdfParseError, out := out,
        err := some "PDF data is empty (0 bytes)" }
    else
      match parse with
      | .error e =>
          { status := .PdfParseError, out := out,
            err := some ("Failed to parse PDF: " ++ e) }
      | .ok pages =>
          { status := .Success, out := { out with value := some pages.length },
            err := none }

/-- Model of `oxidize_extract_text_from_page` (lib.rs 412-479). -/
def oxidize_extract_text_from_page (parse : Except String (List (List Nat)))
    (pdf_null : Bool) (pdf_len : Nat) (page_number : Nat)
    (out : OutLoc (List Nat)) (err0 : Option String) : CallResult (List Nat) :=
  if pdf_null || out.isNull then
    { status := .NullPointer, out := out,
      err := some "Null pointer provided to oxidize_extract_text_from_page" }
  else
    let out := { out with value := none }
    if pdf_len = 0 then
      { status := .PdfParseError, out := out,
        err := some "PDF data is empty (0 bytes)" }
    else if page_number = 0 then
      { status := .PdfParseError, out := out,
        err := some "Page number must be >= 1 (1-based indexing)" }
    else
      match parse with
      | .error e =>
          { status := .PdfParseError, out := out,
            err := some ("Failed to parse PDF: " ++ e) }
      | .ok pages =>
          if pages.length ≤ page_number - 1 then
            { status := .PdfParseError, out := out,
              err := some "Page number is out of range" }
          else
            let text := pages.getD (page_number - 1) []
            if 0 ∈ text then
              { status := .InvalidUtf8, out := out,
                err := some "Text contains invalid UTF-8" }
            else
              { status := .Success, out := { out with value := some text },
                err := none }

/-- Model of `oxidize_extract_chunks_from_page` (lib.rs 490-634). -/
def oxidize_extract_chunks_from_page (parse : Except String (List (List Nat)))
    (ser : List DocumentChunk → Except String (List Nat))
    (pdf_null : Bool) (pdf_len : Nat) (page_number : Nat)
    (options : Option ChunkOptions) (out : OutLoc (List Nat))
    (err0 : Option String) : CallResult (List Nat) :=
  if pdf_null || out.isNull then
    { status := .NullPointer, out := out,
      err := some "Null pointer provided to oxidize_extract_chunks_from_page" }
  else
    let out := { out with value := none }
    if pdf_len = 0 then
      { status := .PdfParseError, out := out,
        err := some "PDF data is empty (0 bytes)" }
    else if page_number = 0 then
      { status := .PdfParseError, out := out,
        err := some "Page number must be >= 1 (1-based indexing)" }
    else
      let chunk_opts := options.getD defaultChunkOptions
      match parse with
      | .error e =>
          { status := .PdfParseError, out := out,
            err := some ("Failed to parse PDF: " ++ e) }
      | .ok pages =>
          if pages.length ≤ page_number - 1 then
            { status := .PdfParseError, out := out,
              err := some "Page number is out of range" }
          else
            let pc := pages.getD (page_number - 1) []
            let chunks := chunkLoopB pc chunk_opts page_number (pc.length + 1) 0 0
            match ser chunks with
            | .error e =>
                { status := .SerializationError, out := out,
                  err := some ("Failed to serialize chunks to JSON: " ++ e) }
            | .ok json =>
                if 0 ∈ json then
                  { status := .InvalidUtf8, out := out,
                    err := some "JSON contains invalid UTF-8" }
                else
                    { status := .Success, out := { out with value := some json },
                      err := none }

/-- Model of `oxidize_version` (lib.rs 642-663).  `version` abstracts the
compile-time version string.  Unlike every other entry point, the Rust
function never calls `clear_last_error()`, and its null-pointer early return
does not record a diagnostic either, so the incoming diagnostic `err0` flows
through unchanged on every path. -/
def oxidize_version (version : List Nat) (out : OutLoc (List Nat))
    (err0 : Option String) : CallResult (List Nat) :=
  if out.isNull then
    { status := .NullPointer, out := out, err := err0 }
  else
    let out := { out with value := none }
    if 0 ∈ version then
      { status := .InvalidUtf8, out := out, err := err0 }
    else
      { status := .Success, out := { out with value := some version }, err := err0 }

/-- Model of `oxidize_free_string` (lib.rs 81-86).  The heap is the list of
live allocation handles.  A null handle returns immediately: nothing is
freed and the diagnostic is untouched; a non-null handle is released
(`CString::from_raw` + drop). -/
def oxidize_free_string (h : Option Nat) (heap : List Nat)
    (err0 : Option String) : List Nat × Option String :=
  match h with
  | none => (heap, err0)
  | some p => (heap.erase p, err0)

/-! Structural facts about `decode1`. -/

theorem isCont_false_of_lt {b : Nat} (h : b < 0x80) : isCont b = false := by
  simp [isCont]; omega

theorem isCont_false_of_ge {b : Nat} (h : 0xC0 ≤ b) : isCont b = false := by
  simp [isCont]; omega

theorem isCont_true_of_cont2ok {b b2 : Nat} (h : cont2ok b b2 = true) : isCont b2 = true := by
  unfold cont2ok at h
  split at h
  · simp [isCont] at *; omega
  · split at h
    · simp [isCont] at *; omega
    · split at h
      · simp [isCont] at *; omega
      · split at h
        · simp [isCont] at *; omega
        · exact h

theorem decode1_spec {s : List Nat} {c : Nat} {pre r : List Nat}
    (h : decode1 s = some (c, pre, r)) :
    s = pre ++ r ∧
    (∃ b t, pre = b :: t ∧ isCont b = false ∧ ∀ x ∈ t, isCont x = true) ∧
    pre.length ≤ 4 ∧ ∀ t', decode1 (pre ++ t') = some (c, pre, t') := by
  match s with
  | [] => simp [decode1] at h
  | b :: rest =>
    by_cases h80 : b < 0x80
    · simp only [decode1, if_pos h80, Option.some.injEq, Prod.mk.injEq] at h
      obtain ⟨hc, hpre, hr⟩ := h
      subst hc; subst hpre; subst hr
      refine ⟨rfl, ⟨b, [], rfl, isCont_false_of_lt h80, by simp⟩, by simp, ?_⟩
      intro t'
      simp [decode1, if_pos h80]
    · by_cases hC2 : b < 0xC2
      · simp [decode1, h80, hC2] at h
      · by_cases hE0 : b < 0xE0
        · match rest with
          | [] => simp [decode1, h80, hC2, hE0] at h
          | b2 :: r2 =>
            simp [decode1, h80, hC2, hE0] at h
            obtain ⟨hcont, hc, hpre, hr⟩ := h
            subst hc; subst hr
            rw [← hpre]
            refine ⟨rfl, ⟨b, [b2], rfl, isCont_false_of_ge (by omega), by simp [hcont]⟩,
              by simp, ?_⟩
            intro t'
            simp [decode1, h80, hC2, hE0, hcont]
        · by_cases hF0 : b < 0xF0
          · match rest with
            | [] => simp [decode1, h80, hC2, hE0, hF0] at h
            | [b2] => simp [decode1, h80, hC2, hE0, hF0] at h
            | b2 :: b3 :: r3 =>
              simp [decode1, h80, hC2, hE0, hF0] at h
              obtain ⟨⟨hok, hc3⟩, hc, hpre, hr⟩ := h
              subst hc; subst hr
              rw [← hpre]
              refine ⟨rfl, ⟨b, [b2, b3], rfl, isCont_false_of_ge (by omega), ?_⟩,
                by simp, ?_⟩
              · intro x hx
                simp at hx
                rcases hx with hx | hx
                · subst hx; exact isCont_true_of_cont2ok hok
                · subst hx; exact hc3
              · intro t'
                simp [decode1, h80, hC2, hE0, hF0, hok, hc3]
          · by_cases hF5 : b < 0xF5
            · match rest with
              | [] => simp [decode1, h80, hC2, hE0, hF0, hF5] at h
              | [b2] => simp [decode1, h80, hC2, hE0, hF0, hF5] at h
              | [b2, b3] => simp [decode1, h80, hC2, hE0, hF0, hF5] at h
              | b2 :: b3 :: b4 :: r4 =>
                simp [decode1, h80, hC2, hE0, hF0, hF5] at h
                obtain ⟨⟨⟨hok, hc3⟩, hc4⟩, hc, hpre, hr⟩ := h
                subst hc; subst hr
                rw [← hpre]
                refine ⟨rfl, ⟨b, [b2, b3, b4], rfl, isCont_false_of_ge (by omega), ?_⟩,
                  by simp, ?_⟩
                · intro x hx
                  simp at hx
                  rcases hx with hx | hx | hx
                  · subst hx; exact isCont_true_of_cont2ok hok
                  · subst hx; exact hc3
                  · subst hx; exact hc4
                · intro t'
                  simp [decode1, h80, hC2, hE0, hF0, hF5, hok, hc3, hc4]
            · simp [decode1, h80, hC2, hE0, hF0, hF5] at h

theorem decode1_rest_length {s : List Nat} {c : Nat} {pre r : List Nat}
    (h : decode1 s = some (c, pre, r)) : r.length < s.length := by
  obtain ⟨hs, ⟨b, t, hpre, -, -⟩, -, -⟩ := decode1_spec h
  subst hs; subst hpre
  simp; omega

/-! Facts about `utf8Groups`. -/

theorem utf8GroupsGo_nil (f : Nat) : utf8GroupsGo f [] = [] := by
  cases f <;> rfl

theorem utf8GroupsGo_fuel_irrel :
    ∀ f g s, s.length ≤ f → s.length ≤ g → utf8GroupsGo f s = utf8GroupsGo g s := by
  intro f
  induction f with
  | zero =>
    intro g s hf hg
    have : s = [] := by
      cases s with
      | nil => rfl
      | cons a t => simp at hf
    subst this
    simp [utf8GroupsGo_nil]
  | succ f ih =>
    intro g s hf hg
    cases s with
    | nil => simp [utf8GroupsGo_nil]
    | cons b rest =>
      cases g with
      | zero => simp at hg
      | succ g =>
        simp only [utf8GroupsGo]
        cases hd : decode1 (b :: rest) with
        | some v =>
          obtain ⟨c, pre, r⟩ := v
          have hlt := decode1_rest_length hd
          simp only []
          rw [ih g r (by simp at hf hlt ⊢; omega) (by simp at hg hlt ⊢; omega)]
        | none =>
          simp only []
          rw [ih g rest (by simp at hf ⊢; omega) (by simp at hg ⊢; omega)]

theorem utf8Groups_cons {s : List Nat} {c : Nat} {pre r : List Nat}
    (h : decode1 s = some (c, pre, r)) :
    utf8Groups s = (some c, pre) :: utf8Groups r := by
  cases s with
  | nil => simp [decode1] at h
  | cons b rest =>
    have hlt := decode1_rest_length h
    simp only [utf8Groups, List.length_cons, utf8GroupsGo, h]
    rw [utf8GroupsGo_fuel_irrel rest.length r.length r (by simp at hlt; omega) le_rfl]

theorem utf8Groups_cons_none {b : Nat} {rest : List Nat}
    (h : decode1 (b :: rest) = none) :
    utf8Groups (b :: rest) = (none, [b]) :: utf8Groups rest := by
  simp only [utf8Groups, List.length_cons, utf8GroupsGo, h]

theorem flattenGroups_nil : flattenGroups [] = [] := rfl

theorem flattenGroups_cons (g : Option Nat × List Nat) (gs : List (Option Nat × List Nat)) :
    flattenGroups (g :: gs) = g.2 ++ flattenGroups gs := by
  simp [flattenGroups]

theorem flattenGroups_append (g1 g2 : List (Option Nat × List Nat)) :
    flattenGroups (g1 ++ g2) = flattenGroups g1 ++ flattenGroups g2 := by
  simp [flattenGroups]

theorem flattenGroups_utf8Groups_aux :
    ∀ n, ∀ s : List Nat, s.length ≤ n → flattenGroups (utf8Groups s) = s := by
  intro n
  induction n with
  | zero =>
    intro s hle
    have : s = [] := by cases s with | nil => rfl | cons a t => simp at hle
    subst this; rfl
  | succ n ih =>
    intro s hle
    cases s with
    | nil => rfl
    | cons b rest =>
      cases hd : decode1 (b :: rest) with
      | some v =>
        obtain ⟨c, pre, r⟩ := v
        have hlt := decode1_rest_length hd
        obtain ⟨hsplit, -, -, -⟩ := decode1_spec hd
        rw [utf8Groups_cons hd, flattenGroups_cons,
          ih r (by simp at hle hlt ⊢; omega), ← hsplit]
      | none =>
        rw [utf8Groups_cons_none hd, flattenGroups_cons,
          ih rest (by simp at hle ⊢; omega)]
        rfl

theorem flattenGroups_utf8Groups (s : List Nat) : flattenGroups (utf8Groups s) = s :=
  flattenGroups_utf8Groups_aux s.length s le_rfl

theorem valid_cons {s : List Nat} {c : Nat} {pre r : List Nat}
    (hv : utf8ValidB s = true) (h : decode1 s = some (c, pre, r)) :
    utf8ValidB r = true := by
  rw [utf8ValidB, utf8Groups_cons h] at hv
  simp only [List.all_cons, Bool.and_eq_true] at hv
  exact hv.2

theorem valid_decode1 {b : Nat} {rest : List Nat}
    (hv : utf8ValidB (b :: rest) = true) :
    ∃ c pre r, decode1 (b :: rest) = some (c, pre, r) := by
  cases hd : decode1 (b :: rest) with
  | some v =>
    obtain ⟨c, pre, r⟩ := v
    exact ⟨c, pre, r, rfl⟩

  | none =>
    rw [utf8ValidB, utf8Groups_cons_none hd] at hv
    simp at hv

theorem mem_utf8Groups_charGroup_aux :
    ∀ n, ∀ s : List Nat, s.length ≤ n → ∀ g ∈ utf8Groups s, g.1.isSome = true →
      ∃ c, g.1 = some c ∧ decode1 g.2 = some (c, g.2, []) := by
  intro n
  induction n with
  | zero =>
    intro s hle g hg
    have : s = [] := by cases s with | nil => rfl | cons a t => simp at hle
    subst this
    simp [utf8Groups, utf8GroupsGo_nil] at hg
  | succ n ih =>
    intro s hle g hg hsome
    cases s with
    | nil => simp [utf8Groups, utf8GroupsGo_nil] at hg
    | cons b rest =>
      cases hd : decode1 (b :: rest) with
      | some v =>
        obtain ⟨c, pre, r⟩ := v
        have hlt := decode1_rest_length hd
        rw [utf8Groups_cons hd] at hg
        rcases List.mem_cons.mp hg with hg | hg
        · subst hg
          obtain ⟨-, -, -, happ⟩ := decode1_spec hd
          exact ⟨c, rfl, by simpa using happ []⟩
        · exact ih r (by simp at hle hlt ⊢; omega) g hg hsome
      | none =>
        rw [utf8Groups_cons_none hd] at hg
        rcases List.mem_cons.mp hg with hg | hg
        · subst hg; simp at hsome
        · exact ih rest (by simp at hle ⊢; omega) g hg hsome

theorem mem_utf8Groups_charGroup {s : List Nat} {g : Option Nat × List Nat}
    (hg : g ∈ utf8Groups s) (hsome : g.1.isSome = true) :
    ∃ c, g.1 = some c ∧ decode1 g.2 = some (c, g.2, []) :=
  mem_utf8Groups_charGroup_aux s.length s le_rfl g hg hsome

theorem mem_utf8Groups_bytes_ne_nil_aux :
    ∀ n, ∀ s : List Nat, s.length ≤ n → ∀ g ∈ utf8Groups s, g.2 ≠ [] := by
  intro n
  induction n with
  | zero =>
    intro s hle g hg
    have : s = [] := by cases s with | nil => rfl | cons a t => simp at hle
    subst this
    simp [utf8Groups, utf8GroupsGo_nil] at hg
  | succ n ih =>
    intro s hle g hg
    cases s with
    | nil => simp [utf8Groups, utf8GroupsGo_nil] at hg
    | cons b rest =>
      cases hd : decode1 (b :: rest) with
      | some v =>
        obtain ⟨c, pre, r⟩ := v
        have hlt := decode1_rest_length hd
        rw [utf8Groups_cons hd] at hg
        rcases List.mem_cons.mp hg with hg | hg
        · subst hg
          obtain ⟨-, ⟨b0, t0, hpre, -, -⟩, -, -⟩ := decode1_spec hd
          simp [hpre]
        · exact ih r (by simp at hle hlt ⊢; omega) g hg
      | none =>
        rw [utf8Groups_cons_none hd] at hg
        rcases List.mem_cons.mp hg with hg | hg
        · subst hg; simp
        · exact ih rest (by simp at hle ⊢; omega) g hg

theorem mem_utf8Groups_bytes_ne_nil {s : List Nat} {g : Option Nat × List Nat}
    (hg : g ∈ utf8Groups s) : g.2 ≠ [] :=
  mem_utf8Groups_bytes_ne_nil_aux s.length s le_rfl g hg

theorem valid_group_shape {s : List Nat} (hv : utf8ValidB s = true) :
    ∀ g ∈ utf8Groups s,
      ∃ b t, g.2 = b :: t ∧ isCont b = false ∧ (∀ x ∈ t, isCont x = true) ∧ g.2.length ≤ 4 := by
  intro g hg
  have hsome : g.1.isSome = true := by
    rw [utf8ValidB, List.all_eq_true] at hv
    exact hv g hg
  obtain ⟨c, -, hdec⟩ := mem_utf8Groups_charGroup hg hsome
  obtain ⟨-, ⟨b, t, hpre, hb, ht⟩, hlen, -⟩ := decode1_spec hdec
  exact ⟨b, t, hpre, hb, ht, by rw [hpre] at hlen ⊢; exact hlen⟩

theorem utf8Groups_flatten_of_charGroups :
    ∀ gs : List (Option Nat × List Nat),
      (∀ g ∈ gs, ∃ c, g.1 = some c ∧ decode1 g.2 = some (c, g.2, [])) →
      utf8Groups (flattenGroups gs) = gs := by
  intro gs
  induction gs with
  | nil => intro _; rfl
  | cons g gs ih =>
    intro hall
    obtain ⟨c, hg1, hdec⟩ := hall g (List.mem_cons_self g gs)
    obtain ⟨-, -, -, happ⟩ := decode1_spec hdec
    have hstep : decode1 (g.2 ++ flattenGroups gs) = some (c, g.2, flattenGroups gs) :=
      happ (flattenGroups gs)
    rw [flattenGroups_cons, utf8Groups_cons hstep,
      ih (fun g' hg' => hall g' (List.mem_cons_of_mem g hg'))]
    have : g = (some c, g.2) := by
      obtain ⟨ga, gb⟩ := g
      simp at hg1 ⊢
      exact hg1
    rw [← this]

/-! Facts about `countCont` and `find_char_boundary`. -/

theorem countCont_cons_false {b : Nat} (h : isCont b = false) (l : List Nat) :
    countCont (b :: l) = 0 := by
  simp [countCont, h]

theorem countCont_le_length : ∀ l : List Nat, countCont l ≤ l.length := by
  intro l
  induction l with
  | nil => simp [countCont]
  | cons b r ih =>
    by_cases h : isCont b = true
    · simp [countCont, h]; omega
    · simp [countCont, h]

theorem countCont_append_of_all {l1 : List Nat} (h : ∀ x ∈ l1, isCont x = true)
    (l2 : List Nat) : countCont (l1 ++ l2) = l1.length + countCont l2 := by
  induction l1 with
  | nil => simp
  | cons b r ih =>
    have hb : isCont b = true := h b (List.mem_cons_self b r)
    have hrec := ih (fun x hx => h x (List.mem_cons_of_mem b hx))
    simp only [List.cons_append, countCont, hb, if_pos, List.append_eq] at hrec ⊢
    rw [hrec]
    simp; omega

theorem countCont_getD :
    ∀ l : List Nat, countCont l = l.length ∨ isCont (l.getD (countCont l) 0) = false := by
  intro l
  induction l with
  | nil => left; rfl
  | cons b r ih =>
    by_cases h : isCont b = true
    · simp only [countCont, h, if_pos]
      rcases ih with ih | ih
      · left; simp [ih]
      · right; simpa using ih
    · right
      simp only [countCont, h, if_neg]
      simp at h
      simpa using h

theorem countCont_le_of_getD :
    ∀ (l : List Nat) (k : Nat), isCont (l.getD k 0) = false → countCont l ≤ k := by
  intro l
  induction l with
  | nil => intro k _; simp [countCont]
  | cons b r ih =>
    intro k hk
    cases k with
    | zero =>
      simp only [List.getD] at hk
      simp at hk
      simp [countCont, hk]
    | succ k =>
      by_cases h : isCont b = true
      · simp only [countCont, h, if_pos]
        have := ih k (by simpa using hk)
        omega
      · simp [countCont, h]

theorem countCont_valid_zero {s : List Nat} (hv : utf8ValidB s = true) :
    countCont s = 0 := by
  cases s with
  | nil => rfl
  | cons b rest =>
    obtain ⟨c, pre, r, hd⟩ := valid_decode1 hv
    obtain ⟨hsplit, ⟨b0, t0, hpre, hb0, -⟩, -, -⟩ := decode1_spec hd
    rw [hpre, List.cons_append] at hsplit
    injection hsplit with hb hrest
    subst hb
    exact countCont_cons_false hb0 rest

theorem fcb_of_le {s : List Nat} {i : Nat} (h : s.length ≤ i) :
    find_char_boundary s i = s.length := by
  simp [find_char_boundary, h]

theorem fcb_zero (s : List Nat) : find_char_boundary s 0 = 0 := by
  by_cases h : s.length ≤ 0
  · rw [fcb_of_le h]; omega
  · simp [find_char_boundary, h]

theorem fcb_ge {s : List Nat} {i : Nat} (h : i ≤ s.length) :
    i ≤ find_char_boundary s i := by
  by_cases h1 : s.length ≤ i
  · rw [fcb_of_le h1]; omega
  · by_cases h2 : i = 0
    · omega
    · simp [find_char_boundary, h1, h2]

theorem fcb_le_length (s : List Nat) (i : Nat) : find_char_boundary s i ≤ s.length := by
  by_cases h1 : s.length ≤ i
  · rw [fcb_of_le h1]
  · by_cases h2 : i = 0
    · subst h2; rw [fcb_zero]; omega
    · simp only [find_char_boundary, h1, if_neg, h2, if_false]
      have := countCont_le_length (s.drop i)
      simp at this
      omega

theorem fcb_eq_add {s : List Nat} {i : Nat} (h1 : ¬ s.length ≤ i) (h2 : i ≠ 0) :
    find_char_boundary s i = i + countCont (s.drop i) := by
  simp [find_char_boundary, h1, h2]

theorem getD_drop (s : List Nat) (i k : Nat) :
    (s.drop i).getD k 0 = s.getD (i + k) 0 := by
  simp [List.getD, List.getElem?_drop]

theorem fcb_noncont (s : List Nat) {i : Nat} (h2 : i ≠ 0) :
    find_char_boundary s i = s.length ∨
      isCont (s.getD (find_char_boundary s i) 0) = false := by
  by_cases h1 : s.length ≤ i
  · left; exact fcb_of_le h1
  · rw [fcb_eq_add h1 h2]
    rcases countCont_getD (s.drop i) with hc | hc
    · left
      simp at hc
      omega
    · right
      rw [getD_drop] at hc
      exact hc

theorem fcb_le_of_noncont {s : List Nat} {i b : Nat} (hib : i ≤ b) (hbl : b ≤ s.length)
    (hb : b = s.length ∨ isCont (s.getD b 0) = false) :
    find_char_boundary s i ≤ b := by
  by_cases h1 : s.length ≤ i
  · rw [fcb_of_le h1]; omega
  · by_cases h2 : i = 0
    · subst h2; rw [fcb_zero]; omega
    · rw [fcb_eq_add h1 h2]
      rcases hb with hb | hb
      · subst hb
        have := fcb_le_length s i
        rw [fcb_eq_add h1 h2] at this
        exact this
      · have := countCont_le_of_getD (s.drop i) (b - i) (by rwa [getD_drop, Nat.add_sub_cancel' hib])
        omega

/-! Character boundaries of valid UTF-8 strings. -/

theorem isBoundary_zero (s : List Nat) : IsBoundary s 0 :=
  ⟨0, by simp [flattenGroups]⟩

theorem isBoundary_length (s : List Nat) : IsBoundary s s.length :=
  ⟨(utf8Groups s).length, by rw [List.take_length, flattenGroups_utf8Groups]⟩

theorem isBoundary_le_length {s : List Nat} {i : Nat} (h : IsBoundary s i) : i ≤ s.length := by
  obtain ⟨k, hk⟩ := h
  have hs : flattenGroups ((utf8Groups s).take k) ++ flattenGroups ((utf8Groups s).drop k) = s := by
    rw [← flattenGroups_append, List.take_append_drop, flattenGroups_utf8Groups]
  have := congrArg List.length hs
  simp only [List.length_append] at this
  omega

theorem isBoundary_cons_shift {s r : List Nat} {c : Nat} {pre : List Nat} {m : Nat}
    (hg : utf8Groups s = (some c, pre) :: utf8Groups r) (hm : IsBoundary r m) :
    IsBoundary s (pre.length + m) := by
  obtain ⟨k, hk⟩ := hm
  refine ⟨k + 1, ?_⟩
  rw [hg, List.take_succ_cons, flattenGroups_cons]
  simp [hk]

theorem isBoundary_first {s r : List Nat} {c : Nat} {pre : List Nat}
    (hg : utf8Groups s = (some c, pre) :: utf8Groups r) :
    IsBoundary s pre.length := by
  refine ⟨1, ?_⟩
  rw [hg]
  simp [flattenGroups]

theorem fcb_isBoundary_aux :
    ∀ n, ∀ s : List Nat, s.length ≤ n → utf8ValidB s = true →
      ∀ i, IsBoundary s (find_char_boundary s i) := by
  intro n
  induction n with
  | zero =>
    intro s hle hv i
    have : s = [] := by cases s with | nil => rfl | cons a t => simp at hle
    subst this
    rw [fcb_of_le (by simp)]
    exact isBoundary_length []
  | succ n ih =>
    intro s hle hv i
    cases s with
    | nil =>
      rw [fcb_of_le (by simp)]
      exact isBoundary_length []
    | cons b rest =>
      obtain ⟨c, pre, r, hd⟩ := valid_decode1 hv
      obtain ⟨hsplit, ⟨b0, t0, hpre, hb0, ht0⟩, hlen4, -⟩ := decode1_spec hd
      have hg := utf8Groups_cons hd
      have hvr : utf8ValidB r = true := valid_cons hv hd
      have hlt := decode1_rest_length hd
      have hprelen : 1 ≤ pre.length := by rw [hpre]; simp
      have hslen : (b :: rest).length = pre.length + r.length := by
        rw [hsplit]; simp
      by_cases hI1 : (b :: rest).length ≤ i
      · rw [fcb_of_le hI1]; exact isBoundary_length _
      · by_cases hI0 : i = 0
        · subst hI0; rw [fcb_zero]; exact isBoundary_zero _
        · rw [fcb_eq_add hI1 hI0]
          by_cases hIpre : i < pre.length
          · have hdrop : (b :: rest).drop i = pre.drop i ++ r := by
              rw [hsplit, List.drop_append_eq_append_drop]
              have h0 : i - pre.length = 0 := by omega
              rw [h0, List.drop_zero]
            have hallc : ∀ x ∈ pre.drop i, isCont x = true := by
              intro x hx
              apply ht0
              have hdt : pre.drop i = t0.drop (i - 1) := by
                rw [hpre]
                cases i with
                | zero => omega
                | succ j => simp
              rw [hdt] at hx
              exact List.drop_subset _ _ hx
            have hcr : countCont r = 0 := by
              cases r with
              | nil => rfl
              | cons rb rt => exact countCont_valid_zero hvr
            rw [hdrop, countCont_append_of_all hallc, hcr]
            have hsum : i + ((pre.drop i).length + 0) = pre.length := by
              simp only [List.length_drop]
              omega
            rw [hsum]
            exact isBoundary_first hg
          · have hdrop : (b :: rest).drop i = r.drop (i - pre.length) := by
              rw [hsplit, List.drop_append_eq_append_drop]
              have h0 : pre.drop i = [] := List.drop_eq_nil_of_le (by omega)
              rw [h0, List.nil_append]
            rw [hdrop]
            by_cases hj0 : i - pre.length = 0
            · have hcr : countCont r = 0 := by
                cases r with
                | nil => rfl
                | cons rb rt => exact countCont_valid_zero hvr
              rw [hj0, List.drop_zero, hcr]
              have hsum : i + 0 = pre.length := by omega
              rw [hsum]
              exact isBoundary_first hg
            · have hjlt : i - pre.length < r.length := by omega
              have hrec := ih r (by simp at hle hlt; omega) hvr (i - pre.length)
              rw [fcb_eq_add (by omega) hj0] at hrec
              have hshift := isBoundary_cons_shift hg hrec
              have heq : i + countCont (r.drop (i - pre.length)) =
                  pre.length + (i - pre.length + countCont (r.drop (i - pre.length))) := by
                omega
              rw [heq]
              exact hshift

theorem fcb_isBoundary {s : List Nat} (hv : utf8ValidB s = true) (i : Nat) :
    IsBoundary s (find_char_boundary s i) :=
  fcb_isBoundary_aux s.length s le_rfl hv i

theorem countCont_drop_le_three_aux :
    ∀ n, ∀ s : List Nat, s.length ≤ n → utf8ValidB s = true →
      ∀ i, countCont (s.drop i) ≤ 3 := by
  intro n
  induction n with
  | zero =>
    intro s hle hv i
    have : s = [] := by cases s with | nil => rfl | cons a t => simp at hle
    subst this
    simp [countCont]
  | succ n ih =>
    intro s hle hv i
    cases s with
    | nil => simp [countCont]
    | cons b rest =>
      obtain ⟨c, pre, r, hd⟩ := valid_decode1 hv
      obtain ⟨hsplit, ⟨b0, t0, hpre, hb0, ht0⟩, hlen4, -⟩ := decode1_spec hd
      have hvr : utf8ValidB r = true := valid_cons hv hd
      have hlt := decode1_rest_length hd
      have hprelen : 1 ≤ pre.length := by rw [hpre]; simp
      have hcr : countCont r = 0 := by
        cases r with
        | nil => rfl
        | cons rb rt => exact countCont_valid_zero hvr
      by_cases hI0 : i = 0
      · subst hI0
        rw [List.drop_zero]
        rw [countCont_valid_zero hv]
        omega
      · by_cases hIpre : i < pre.length
        · have hdrop : (b :: rest).drop i = pre.drop i ++ r := by
            rw [hsplit, List.drop_append_eq_append_drop]
            have h0 : i - pre.length = 0 := by omega
            rw [h0, List.drop_zero]
          have hallc : ∀ x ∈ pre.drop i, isCont x = true := by
            intro x hx
            apply ht0
            have hdt : pre.drop i = t0.drop (i - 1) := by
              rw [hpre]
              cases i with
              | zero => omega
              | succ j => simp
            rw [hdt] at hx
            exact List.drop_subset _ _ hx
          rw [hdrop, countCont_append_of_all hallc, hcr]
          simp only [List.length_drop]
          omega
        · have hdrop : (b :: rest).drop i = r.drop (i - pre.length) := by
            rw [hsplit, List.drop_append_eq_append_drop]
            have h0 : pre.drop i = [] := List.drop_eq_nil_of_le (by omega)
            rw [h0, List.nil_append]
          rw [hdrop]
          exact ih r (by simp at hle hlt; omega) hvr (i - pre.length)

theorem countCont_drop_le_three {s : List Nat} (hv : utf8ValidB s = true) (i : Nat) :
    countCont (s.drop i) ≤ 3 :=
  countCont_drop_le_three_aux s.length s le_rfl hv i

theorem fcb_le_add_three {s : List Nat} (hv : utf8ValidB s = true) (i : Nat) :
    find_char_boundary s i ≤ i + 3 := by
  by_cases h1 : s.length ≤ i
  · rw [fcb_of_le h1]; omega
  · by_cases h2 : i = 0
    · subst h2; rw [fcb_zero]; omega
    · rw [fcb_eq_add h1 h2]
      have := countCont_drop_le_three hv i
      omega

/-! Slices between character boundaries. -/

theorem slice_isInfixOf (s : List Nat) (a b : Nat) : sliceBytes s a b <:+: s := by
  have h1 : (s.take b).drop a <:+ s.take b := List.drop_suffix a (s.take b)
  have h2 : s.take b <+: s := ⟨s.drop b, List.take_append_drop b s⟩
  exact h1.isInfix.trans h2.isInfix

theorem slice_length_le (s : List Nat) (a b : Nat) :
    (sliceBytes s a b).length ≤ b - a := by
  simp only [sliceBytes, List.length_drop, List.length_take]
  omega

theorem flattenGroups_take_le (gs : List (Option Nat × List Nat)) {k1 k2 : Nat} (h : k1 ≤ k2) :
    (flattenGroups (gs.take k1)).length ≤ (flattenGroups (gs.take k2)).length := by
  have heq : gs.take k1 = (gs.take k2).take k1 := by
    rw [List.take_take, Nat.min_eq_left h]
  rw [heq]
  have hsplit : flattenGroups ((gs.take k2).take k1) ++ flattenGroups ((gs.take k2).drop k1) =
      flattenGroups (gs.take k2) := by
    rw [← flattenGroups_append, List.take_append_drop]
  have := congrArg List.length hsplit
  simp only [List.length_append] at this
  omega

theorem isBoundary_bounded {s : List Nat} {i : Nat} (h : IsBoundary s i) :
    ∃ k, k ≤ (utf8Groups s).length ∧
      i = (flattenGroups ((utf8Groups s).take k)).length := by
  obtain ⟨k, hk⟩ := h
  by_cases hle : k ≤ (utf8Groups s).length
  · exact ⟨k, hle, hk⟩
  · refine ⟨(utf8Groups s).length, le_rfl, ?_⟩
    rw [List.take_length]
    rw [List.take_of_length_le (by omega)] at hk
    exact hk

theorem slice_valid {s : List Nat} (hv : utf8ValidB s = true) {a b : Nat}
    (ha : IsBoundary s a) (hb : IsBoundary s b) :
    utf8ValidB (sliceBytes s a b) = true := by
  by_cases hab : b ≤ a
  · have hbl : b ≤ s.length := isBoundary_le_length hb
    have hnil : sliceBytes s a b = [] := by
      apply List.drop_eq_nil_of_le
      rw [List.length_take]
      omega
    rw [hnil]; rfl
  · obtain ⟨k1, hk1le, hk1⟩ := isBoundary_bounded ha
    obtain ⟨k2, hk2le, hk2⟩ := isBoundary_bounded hb
    have hk12 : k1 ≤ k2 := by
      by_contra hcon
      have := flattenGroups_take_le (utf8Groups s) (le_of_not_le hcon : k2 ≤ k1)
      omega
    have hsdecomp : s = flattenGroups ((utf8Groups s).take k2) ++
        flattenGroups ((utf8Groups s).drop k2) := by
      rw [← flattenGroups_append, List.take_append_drop, flattenGroups_utf8Groups]
    have htake : s.take b = flattenGroups ((utf8Groups s).take k2) := by
      conv_lhs => rw [hsdecomp]
      rw [hk2, List.take_left]
    have htk : (utf8Groups s).take k1 = ((utf8Groups s).take k2).take k1 := by
      rw [List.take_take, Nat.min_eq_left hk12]
    have hdecomp2 : flattenGroups ((utf8Groups s).take k2) =
        flattenGroups ((utf8Groups s).take k1) ++
          flattenGroups (((utf8Groups s).take k2).drop k1) := by
      conv_lhs => rw [← List.take_append_drop k1 ((utf8Groups s).take k2)]
      rw [flattenGroups_append, ← htk]
    have hslice : sliceBytes s a b = flattenGroups (((utf8Groups s).take k2).drop k1) := by
      rw [sliceBytes, htake, hdecomp2, hk1, List.drop_left]
    rw [hslice]
    have hmem : ∀ g ∈ ((utf8Groups s).take k2).drop k1, g ∈ utf8Groups s := by
      intro g hg
      exact List.take_subset k2 _ (List.drop_subset _ _ hg)
    have hchar : ∀ g ∈ ((utf8Groups s).take k2).drop k1,
        ∃ c, g.1 = some c ∧ decode1 g.2 = some (c, g.2, []) := by
      intro g hg
      have hsome : g.1.isSome = true := by
        rw [utf8ValidB, List.all_eq_true] at hv
        exact hv g (hmem g hg)
      exact mem_utf8Groups_charGroup (hmem g hg) hsome
    rw [utf8ValidB, utf8Groups_flatten_of_charGroups _ hchar, List.all_eq_true]
    intro g hg
    obtain ⟨c, hc, -⟩ := hchar g hg
    simp [hc]

/-! Facts about trimming. -/

theorem dropWhile_head?_not {α : Type _} (p : α → Bool) (l : List α) :
    ∀ x, (l.dropWhile p).head? = some x → p x = false := by
  induction l with
  | nil => intro x h; simp [List.dropWhile] at h
  | cons a l ih =>
    intro x h
    by_cases ha : p a = true
    · rw [List.dropWhile_cons, if_pos ha] at h
      exact ih x h
    · rw [List.dropWhile_cons, if_neg ha] at h
      simp only [List.head?_cons, Option.some.injEq] at h
      subst h
      simpa using ha

theorem dropWhile_eq_self_of_head {α : Type _} {p : α → Bool} {l : List α}
    (h : ∀ x, l.head? = some x → p x = false) : l.dropWhile p = l := by
  cases l with
  | nil => rfl
  | cons a l =>
    have ha := h a rfl
    rw [List.dropWhile_cons, if_neg (by simp [ha])]

theorem dropWhile_mem_of_not {α : Type _} {p : α → Bool} {l : List α} {x : α}
    (hx : x ∈ l) (hpx : p x = false) : x ∈ l.dropWhile p := by
  induction l with
  | nil => simp at hx
  | cons a l ih =>
    by_cases ha : p a = true
    · rw [List.dropWhile_cons, if_pos ha]
      rcases List.mem_cons.mp hx with h | h
      · subst h; rw [ha] at hpx; simp at hpx
      · exact ih h
    · rw [List.dropWhile_cons, if_neg ha]
      exact hx

theorem trimGroups_decomp (gs : List (Option Nat × List Nat)) :
    ∃ u v, gs = u ++ (trimGroups gs ++ v) := by
  obtain ⟨u, hu⟩ :=
    (List.dropWhile_suffix isWsGroup : gs.dropWhile isWsGroup <:+ gs)
  obtain ⟨w, hw⟩ :=
    (List.dropWhile_suffix isWsGroup :
      (gs.dropWhile isWsGroup).reverse.dropWhile isWsGroup <:+
        (gs.dropWhile isWsGroup).reverse)
  refine ⟨u, w.reverse, ?_⟩
  have h1 : gs.dropWhile isWsGroup = trimGroups gs ++ w.reverse := by
    have h2 := congrArg List.reverse hw
    rw [List.reverse_append, List.reverse_reverse] at h2
    exact h2.symm
  conv_lhs => rw [← hu, h1]

theorem trimGroups_mem {gs : List (Option Nat × List Nat)} {g : Option Nat × List Nat}
    (hg : g ∈ trimGroups gs) : g ∈ gs := by
  obtain ⟨u, v, huv⟩ := trimGroups_decomp gs
  rw [huv]
  simp [hg]

theorem trimBytes_isInfixOf (s : List Nat) : trimBytes s <:+: s := by
  obtain ⟨u, v, huv⟩ := trimGroups_decomp (utf8Groups s)
  have hflat : flattenGroups (utf8Groups s) =
      flattenGroups u ++ (flattenGroups (trimGroups (utf8Groups s)) ++ flattenGroups v) := by
    conv_lhs => rw [huv]
    rw [flattenGroups_append, flattenGroups_append]
  rw [flattenGroups_utf8Groups] at hflat
  refine ⟨flattenGroups u, flattenGroups v, ?_⟩
  rw [trimBytes, List.append_assoc]
  exact hflat.symm

theorem trimBytes_length_le (s : List Nat) : (trimBytes s).length ≤ s.length :=
  List.IsInfix.length_le (trimBytes_isInfixOf s)

theorem trimGroups_idem (gs : List (Option Nat × List Nat)) :
    trimGroups (trimGroups gs) = trimGroups gs := by
  have hX : trimGroups gs = ((gs.dropWhile isWsGroup).reverse.dropWhile isWsGroup).reverse := rfl
  obtain ⟨w, hw⟩ :=
    (List.dropWhile_suffix isWsGroup :
      (gs.dropWhile isWsGroup).reverse.dropWhile isWsGroup <:+
        (gs.dropWhile isWsGroup).reverse)
  have hpre : ((gs.dropWhile isWsGroup).reverse.dropWhile isWsGroup).reverse ++ w.reverse
      = gs.dropWhile isWsGroup := by
    have h2 := congrArg List.reverse hw
    rw [List.reverse_append, List.reverse_reverse] at h2
    exact h2
  have h1 : (trimGroups gs).dropWhile isWsGroup = trimGroups gs := by
    apply dropWhile_eq_self_of_head
    intro x hx
    rw [hX] at hx
    have hxl : (gs.dropWhile isWsGroup).head? = some x := by
      rw [← hpre]
      cases hXr : ((gs.dropWhile isWsGroup).reverse.dropWhile isWsGroup).reverse with
      | nil => rw [hXr] at hx; simp at hx
      | cons y t =>
        rw [hXr] at hx
        simp only [List.head?_cons, Option.some.injEq] at hx
        subst hx
        simp
    exact dropWhile_head?_not isWsGroup gs x hxl
  have h2 : ((gs.dropWhile isWsGroup).reverse.dropWhile isWsGroup).dropWhile isWsGroup
      = (gs.dropWhile isWsGroup).reverse.dropWhile isWsGroup := by
    apply dropWhile_eq_self_of_head
    intro x hx
    exact dropWhile_head?_not isWsGroup (gs.dropWhile isWsGroup).reverse x hx
  calc trimGroups (trimGroups gs)
      = (((trimGroups gs).dropWhile isWsGroup).reverse.dropWhile isWsGroup).reverse := rfl
    _ = ((trimGroups gs).reverse.dropWhile isWsGroup).reverse := by rw [h1]
    _ = ((((gs.dropWhile isWsGroup).reverse.dropWhile isWsGroup).reverse.reverse).dropWhile
          isWsGroup).reverse := by rw [hX]
    _ = (((gs.dropWhile isWsGroup).reverse.dropWhile isWsGroup).dropWhile isWsGroup).reverse := by
          rw [List.reverse_reverse]
    _ = ((gs.dropWhile isWsGroup).reverse.dropWhile isWsGroup).reverse := by rw [h2]
    _ = trimGroups gs := rfl

theorem utf8Groups_trimBytes {s : List Nat} (hv : utf8ValidB s = true) :
    utf8Groups (trimBytes s) = trimGroups (utf8Groups s) := by
  apply utf8Groups_flatten_of_charGroups
  intro g hg
  have hmem := trimGroups_mem hg
  have hsome : g.1.isSome = true := by
    rw [utf8ValidB, List.all_eq_true] at hv
    exact hv g hmem
  exact mem_utf8Groups_charGroup hmem hsome

theorem trimBytes_idem {s : List Nat} (hv : utf8ValidB s = true) :
    trimBytes (trimBytes s) = trimBytes s := by
  conv_lhs => rw [trimBytes, utf8Groups_trimBytes hv, trimGroups_idem]
  rfl

theorem trimBytes_valid {s : List Nat} (hv : utf8ValidB s = true) :
    utf8ValidB (trimBytes s) = true := by
  rw [utf8ValidB, utf8Groups_trimBytes hv, List.all_eq_true]
  intro g hg
  have hmem := trimGroups_mem hg
  rw [utf8ValidB, List.all_eq_true] at hv
  exact hv g hmem

theorem utf8Groups_ascii_aux :
    ∀ n, ∀ s : List Nat, s.length ≤ n → (∀ b ∈ s, b < 128) →
      utf8Groups s = s.map (fun b => (some b, [b])) := by
  intro n
  induction n with
  | zero =>
    intro s hle _
    have : s = [] := by cases s with | nil => rfl | cons a t => simp at hle
    subst this; rfl
  | succ n ih =>
    intro s hle hascii
    cases s with
    | nil => rfl
    | cons b rest =>
      have hb : b < 128 := hascii b (List.mem_cons_self b rest)
      have hd : decode1 (b :: rest) = some (b, [b], rest) := by
        simp [decode1, hb]
      rw [utf8Groups_cons hd,
        ih rest (by simp at hle; omega) (fun x hx => hascii x (List.mem_cons_of_mem b hx))]
      simp

theorem utf8Groups_ascii {s : List Nat} (hascii : ∀ b ∈ s, b < 128) :
    utf8Groups s = s.map (fun b => (some b, [b])) :=
  utf8Groups_ascii_aux s.length s le_rfl hascii

theorem trimGroups_ne_nil {gs : List (Option Nat × List Nat)} {g : Option Nat × List Nat}
    (hg : g ∈ gs) (hws : isWsGroup g = false) : trimGroups gs ≠ [] := by
  have h1 : g ∈ gs.dropWhile isWsGroup := dropWhile_mem_of_not hg hws
  have h2 : g ∈ (gs.dropWhile isWsGroup).reverse := by simpa using h1
  have h3 : g ∈ (gs.dropWhile isWsGroup).reverse.dropWhile isWsGroup :=
    dropWhile_mem_of_not h2 hws
  intro hcon
  rw [trimGroups] at hcon
  have hnil : (gs.dropWhile isWsGroup).reverse.dropWhile isWsGroup = [] := by
    have := congrArg List.reverse hcon
    simpa using this
  rw [hnil] at h3
  simp at h3

theorem trimBytes_ne_nil {s : List Nat} {g : Option Nat × List Nat}
    (hg : g ∈ utf8Groups s) (hws : isWsGroup g = false) : trimBytes s ≠ [] := by
  rw [trimBytes]
  cases htg : trimGroups (utf8Groups s) with
  | nil => exact absurd htg (trimGroups_ne_nil hg hws)
  | cons g0 t =>
    rw [flattenGroups_cons]
    have hne : g0.2 ≠ [] := by
      have hmem : g0 ∈ utf8Groups s := by
        apply trimGroups_mem
        rw [htg]
        exact List.mem_cons_self g0 t
      exact mem_utf8Groups_bytes_ne_nil hmem
    intro hcon
    rw [List.append_eq_nil] at hcon
    exact hne hcon.1

/-! Step characterization of the chunking loops. -/

/-- The `chunk_end` computation of one loop iteration (lib.rs 278-302 and
570-591), as a function of the already-boundary-snapped `start`; written
without `let` so it is definitionally the corresponding subterm of the loop
bodies. -/
def chunkEndOf (pc : List Nat) (o : ChunkOptions) (start : Nat) : Nat :=
  if o.preserve_sentence_boundaries ∧
      find_char_boundary pc (min (start + o.max_chunk_size) pc.length) < pc.length then
    if find_char_boundary pc (start + min (o.max_chunk_size * 4 / 5)
        (find_char_boundary pc (min (start + o.max_chunk_size) pc.length) - start)) <
        find_char_boundary pc (min (start + o.max_chunk_size) pc.length) then
      match rfindPunct (sliceBytes pc
          (find_char_boundary pc (start + min (o.max_chunk_size * 4 / 5)
            (find_char_boundary pc (min (start + o.max_chunk_size) pc.length) - start)))
          (find_char_boundary pc (min (start + o.max_chunk_size) pc.length))) with
      | some i => find_char_boundary pc
          (find_char_boundary pc (start + min (o.max_chunk_size * 4 / 5)
            (find_char_boundary pc (min (start + o.max_chunk_size) pc.length) - start)) + i + 1)
      | none => find_char_boundary pc (min (start + o.max_chunk_size) pc.length)
    else find_char_boundary pc (min (start + o.max_chunk_size) pc.length)
  else find_char_boundary pc (min (start + o.max_chunk_size) pc.length)

theorem chunkLoopA_succ (pc : List Nat) (o : ChunkOptions) (pn fuel bs ci : Nat) :
    chunkLoopA pc o pn (fuel + 1) bs ci =
      if bs < pc.length then
        if pc.length ≤ find_char_boundary pc bs then []
        else
          if trimBytes (sliceBytes pc (find_char_boundary pc bs)
              (chunkEndOf pc o (find_char_boundary pc bs))) = [] then
            if chunkEndOf pc o (find_char_boundary pc bs) - o.overlap ≤ bs ∨
                pc.length ≤ chunkEndOf pc o (find_char_boundary pc bs) then []
            else chunkLoopA pc o pn fuel
              (chunkEndOf pc o (find_char_boundary pc bs) - o.overlap) ci
          else
            { index := ci, page_number := pn,
              text := trimBytes (sliceBytes pc (find_char_boundary pc bs)
                (chunkEndOf pc o (find_char_boundary pc bs))) } ::
              (if chunkEndOf pc o (find_char_boundary pc bs) - o.overlap ≤ bs ∨
                  pc.length ≤ chunkEndOf pc o (find_char_boundary pc bs) then []
               else chunkLoopA pc o pn fuel
                 (chunkEndOf pc o (find_char_boundary pc bs) - o.overlap) (ci + 1))
      else [] := rfl

theorem chunkLoopB_succ (pc : List Nat) (o : ChunkOptions) (pn fuel bs ci : Nat) :
    chunkLoopB pc o pn (fuel + 1) bs ci =
      if bs < pc.length then
        if pc.length ≤ find_char_boundary pc bs then []
        else
          if trimBytes (sliceBytes pc (find_char_boundary pc bs)
              (chunkEndOf pc o (find_char_boundary pc bs))) = [] then
            if chunkEndOf pc o (find_char_boundary pc bs) - o.overlap ≤ bs ∨
                pc.length ≤ chunkEndOf pc o (find_char_boundary pc bs) then []
            else chunkLoopB pc o pn fuel
              (chunkEndOf pc o (find_char_boundary pc bs) - o.overlap) ci
          else
            { index := ci, page_number := pn,
              text := trimBytes (sliceBytes pc (find_char_boundary pc bs)
                (chunkEndOf pc o (find_char_boundary pc bs))) } ::
              (if chunkEndOf pc o (find_char_boundary pc bs) - o.overlap ≤ bs ∨
                  pc.length ≤ chunkEndOf pc o (find_char_boundary pc bs) then []
               else chunkLoopB pc o pn fuel
                 (chunkEndOf pc o (find_char_boundary pc bs) - o.overlap) (ci + 1))
      else [] := rfl

theorem chunkLoopSpans_succ (pc : List Nat) (o : ChunkOptions) (fuel bs : Nat) :
    chunkLoopSpans pc o (fuel + 1) bs =
      if bs < pc.length then
        if pc.length ≤ find_char_boundary pc bs then []
        else
          if trimBytes (sliceBytes pc (find_char_boundary pc bs)
              (chunkEndOf pc o (find_char_boundary pc bs))) = [] then
            if chunkEndOf pc o (find_char_boundary pc bs) - o.overlap ≤ bs ∨
                pc.length ≤ chunkEndOf pc o (find_char_boundary pc bs) then []
            else chunkLoopSpans pc o fuel
              (chunkEndOf pc o (find_char_boundary pc bs) - o.overlap)
          else
            (find_char_boundary pc bs, chunkEndOf pc o (find_char_boundary pc bs)) ::
              (if chunkEndOf pc o (find_char_boundary pc bs) - o.overlap ≤ bs ∨
                  pc.length ≤ chunkEndOf pc o (find_char_boundary pc bs) then []
               else chunkLoopSpans pc o fuel
                 (chunkEndOf pc o (find_char_boundary pc bs) - o.overlap))
      else [] := rfl

theorem rfindPunct_lt : ∀ l : List Nat, ∀ i, rfindPunct l = some i → i < l.length := by
  intro l
  induction l with
  | nil => intro i h; simp [rfindPunct] at h
  | cons b r ih =>
    intro i h
    simp only [rfindPunct] at h
    cases hr : rfindPunct r with
    | some j =>
      rw [hr] at h
      simp only [Option.some.injEq] at h
      have := ih j hr
      simp only [List.length_cons]
      omega
    | none =>
      rw [hr] at h
      by_cases hp : isPunct b = true
      · simp only [hp, if_pos] at h
        simp only [Option.some.injEq] at h
        simp only [List.length_cons]
        omega
      · simp [hp] at h

theorem chunkEndOf_cases (pc : List Nat) (o : ChunkOptions) (start : Nat) :
    chunkEndOf pc o start = find_char_boundary pc (min (start + o.max_chunk_size) pc.length) ∨
    ∃ ss i, ss < find_char_boundary pc (min (start + o.max_chunk_size) pc.length) ∧
      ss = find_char_boundary pc (start + min (o.max_chunk_size * 4 / 5)
        (find_char_boundary pc (min (start + o.max_chunk_size) pc.length) - start)) ∧
      rfindPunct (sliceBytes pc ss
        (find_char_boundary pc (min (start + o.max_chunk_size) pc.length))) = some i ∧
      chunkEndOf pc o start = find_char_boundary pc (ss + i + 1) := by
  rw [chunkEndOf]
  split
  · split
    · split
      · next i heq =>
          right
          exact ⟨_, i, by assumption, rfl, heq, rfl⟩
      · left; rfl
    · left; rfl
  · left; rfl

theorem chunkEndOf_spec (pc : List Nat) (o : ChunkOptions) {start : Nat}
    (hs : start < pc.length) :
    start ≤ chunkEndOf pc o start ∧
    chunkEndOf pc o start ≤ find_char_boundary pc (min (start + o.max_chunk_size) pc.length) ∧
    ∃ j, chunkEndOf pc o start = find_char_boundary pc j := by
  have hre_le : min (start + o.max_chunk_size) pc.length ≤ pc.length := Nat.min_le_right _ _
  have hre_ge : start ≤ min (start + o.max_chunk_size) pc.length :=
    Nat.le_min.mpr ⟨Nat.le_add_right _ _, Nat.le_of_lt hs⟩
  have hend_ge := fcb_ge hre_le
  have hend_len := fcb_le_length pc (min (start + o.max_chunk_size) pc.length)
  rcases chunkEndOf_cases pc o start with h | ⟨ss, i, hss, hssdef, hr, h⟩
  · rw [h]
    exact ⟨by omega, le_rfl, ⟨_, rfl⟩⟩
  · have hrl := rfindPunct_lt _ i hr
    have hslice : (sliceBytes pc ss
        (find_char_boundary pc (min (start + o.max_chunk_size) pc.length))).length =
        find_char_boundary pc (min (start + o.max_chunk_size) pc.length) - ss := by
      simp only [sliceBytes, List.length_drop, List.length_take]
      omega
    rw [hslice] at hrl
    have hpos_le : ss + i + 1 ≤
        find_char_boundary pc (min (start + o.max_chunk_size) pc.length) := by omega
    have hpos_lelen : ss + i + 1 ≤ pc.length := by omega
    have hfcbpos := fcb_ge hpos_lelen
    have hre0 : min (start + o.max_chunk_size) pc.length ≠ 0 := by
      intro h0
      rw [h0, fcb_zero] at hss
      omega
    have hnc := fcb_noncont pc hre0
    have hle2 : find_char_boundary pc (ss + i + 1) ≤
        find_char_boundary pc (min (start + o.max_chunk_size) pc.length) :=
      fcb_le_of_noncont hpos_le hend_len hnc
    have hssge : start ≤ ss := by
      rw [hssdef]
      have hrss : start + min (o.max_chunk_size * 4 / 5)
          (find_char_boundary pc (min (start + o.max_chunk_size) pc.length) - start)
          ≤ pc.length := by omega
      have := fcb_ge hrss
      omega
    rw [h]
    exact ⟨by omega, hle2, ⟨_, rfl⟩⟩

/-! Loop-level lemmas. -/

theorem chunkLoopA_eq_chunkLoopB (pc : List Nat) (o : ChunkOptions) (pn : Nat) :
    ∀ fuel bs ci, chunkLoopA pc o pn fuel bs ci = chunkLoopB pc o pn fuel bs ci := by
  intro fuel
  induction fuel with
  | zero => intro bs ci; rfl
  | succ fuel ih =>
    intro bs ci
    rw [chunkLoopA_succ, chunkLoopB_succ]
    simp only [ih]

theorem chunkLoopB_shift (pc : List Nat) (o : ChunkOptions) :
    ∀ fuel bs ci pn pn', chunkLoopB pc o pn fuel bs ci =
      (chunkLoopB pc o pn' fuel bs 0).map
        (fun c => { index := c.index + ci, page_number := pn, text := c.text }) := by
  intro fuel
  induction fuel with
  | zero => intro bs ci pn pn'; rfl
  | succ fuel ih =>
    intro bs ci pn pn'
    rw [chunkLoopB_succ, chunkLoopB_succ]
    set st := find_char_boundary pc bs with hst
    set ce := chunkEndOf pc o st with hce
    set ct := trimBytes (sliceBytes pc st ce) with hctd
    by_cases h1 : bs < pc.length
    · rw [if_pos h1, if_pos h1]
      by_cases h2 : pc.length ≤ st
      · rw [if_pos h2, if_pos h2]; rfl
      · rw [if_neg h2, if_neg h2]
        by_cases hct : ct = []
        · rw [if_pos hct, if_pos hct]
          by_cases hstop : ce - o.overlap ≤ bs ∨ pc.length ≤ ce
          · rw [if_pos hstop, if_pos hstop]; rfl
          · rw [if_neg hstop, if_neg hstop]
            exact ih _ ci pn pn'
        · rw [if_neg hct, if_neg hct]
          by_cases hstop : ce - o.overlap ≤ bs ∨ pc.length ≤ ce
          · rw [if_pos hstop, if_pos hstop]
            simp
          · rw [if_neg hstop, if_neg hstop]
            rw [List.map_cons]
            congr 1
            · simp
            · rw [ih (ce - o.overlap) (ci + 1) pn pn', ih (ce - o.overlap) 1 pn' pn',
                List.map_map]
              congr 1
              funext c
              simp only [Function.comp_apply, DocumentChunk.mk.injEq, and_true]
              omega
    · rw [if_neg h1, if_neg h1]
      rfl

theorem chunkLoopA_fuel_irrel (pc : List Nat) (o : ChunkOptions) (pn : Nat) :
    ∀ f g bs ci, pc.length - bs < f → pc.length - bs < g →
      chunkLoopA pc o pn f bs ci = chunkLoopA pc o pn g bs ci := by
  intro f
  induction f with
  | zero => intro g bs ci hf hg; omega
  | succ f ih =>
    intro g bs ci hf hg
    cases g with
    | zero => omega
    | succ g =>
      rw [chunkLoopA_succ, chunkLoopA_succ]
      set st := find_char_boundary pc bs with hst
      set ce := chunkEndOf pc o st with hce
      set ct := trimBytes (sliceBytes pc st ce) with hctd
      by_cases h1 : bs < pc.length
      · rw [if_pos h1, if_pos h1]
        by_cases h2 : pc.length ≤ st
        · rw [if_pos h2, if_pos h2]
        · rw [if_neg h2, if_neg h2]
          by_cases hct : ct = []
          · rw [if_pos hct, if_pos hct]
            by_cases hstop : ce - o.overlap ≤ bs ∨ pc.length ≤ ce
            · rw [if_pos hstop, if_pos hstop]
            · rw [if_neg hstop, if_neg hstop]
              push_neg at hstop
              exact ih g _ ci (by omega) (by omega)
          · rw [if_neg hct, if_neg hct]
            by_cases hstop : ce - o.overlap ≤ bs ∨ pc.length ≤ ce
            · rw [if_pos hstop, if_pos hstop]
            · rw [if_neg hstop, if_neg hstop]
              push_neg at hstop
              rw [ih g _ (ci + 1) (by omega) (by omega)]
      · rw [if_neg h1, if_neg h1]

theorem chunkLoopSpans_map_text (pc : List Nat) (o : ChunkOptions) :
    ∀ fuel bs ci pn,
      (chunkLoopSpans pc o fuel bs).map (fun p => trimBytes (sliceBytes pc p.1 p.2)) =
      (chunkLoopA pc o pn fuel bs ci).map (fun c => c.text) := by
  intro fuel
  induction fuel with
  | zero => intro bs ci pn; rfl
  | succ fuel ih =>
    intro bs ci pn
    rw [chunkLoopSpans_succ, chunkLoopA_succ]
    set st := find_char_boundary pc bs with hst
    set ce := chunkEndOf pc o st with hce
    set ct := trimBytes (sliceBytes pc st ce) with hctd
    by_cases h1 : bs < pc.length
    · rw [if_pos h1, if_pos h1]
      by_cases h2 : pc.length ≤ st
      · rw [if_pos h2, if_pos h2]; rfl
      · rw [if_neg h2, if_neg h2]
        by_cases hct : ct = []
        · rw [if_pos hct, if_pos hct]
          by_cases hstop : ce - o.overlap ≤ bs ∨ pc.length ≤ ce
          · rw [if_pos hstop, if_pos hstop]; rfl
          · rw [if_neg hstop, if_neg hstop]
            exact ih _ ci pn
        · rw [if_neg hct, if_neg hct]
          by_cases hstop : ce - o.overlap ≤ bs ∨ pc.length ≤ ce
          · rw [if_pos hstop, if_pos hstop]; rfl
          · rw [if_neg hstop, if_neg hstop]
            rw [List.map_cons, List.map_cons, ih _ (ci + 1) pn]
    · rw [if_neg h1, if_neg h1]
      rfl

theorem chunkLoopA_mem_spec (pc : List Nat) (o : ChunkOptions) :
    ∀ fuel bs ci pn c, c ∈ chunkLoopA pc o pn fuel bs ci →
      ∃ u v, c.text = trimBytes (sliceBytes pc u v) ∧ c.text ≠ [] ∧
        (∃ i, u = find_char_boundary pc i) ∧ (∃ j, v = find_char_boundary pc j) ∧
        u ≤ v ∧ v ≤ find_char_boundary pc (min (u + o.max_chunk_size) pc.length) := by
  intro fuel
  induction fuel with
  | zero => intro bs ci pn c hc; simp [chunkLoopA] at hc
  | succ fuel ih =>
    intro bs ci pn c hc
    rw [chunkLoopA_succ] at hc
    set st := find_char_boundary pc bs with hst
    set ce := chunkEndOf pc o st with hce
    set ct := trimBytes (sliceBytes pc st ce) with hctd
    by_cases h1 : bs < pc.length
    · rw [if_pos h1] at hc
      by_cases h2 : pc.length ≤ st
      · rw [if_pos h2] at hc; simp at hc
      · rw [if_neg h2] at hc
        by_cases hct : ct = []
        · rw [if_pos hct] at hc
          by_cases hstop : ce - o.overlap ≤ bs ∨ pc.length ≤ ce
          · rw [if_pos hstop] at hc; simp at hc
          · rw [if_neg hstop] at hc
            exact ih _ ci pn c hc
        · rw [if_neg hct] at hc
          rcases List.mem_cons.mp hc with hc | hc
          · subst hc
            obtain ⟨hle, hub, j, hj⟩ := chunkEndOf_spec pc o (show st < pc.length by omega)
            exact ⟨st, ce, rfl, hct, ⟨bs, hst⟩, ⟨j, by rw [hce, hj]⟩, hle, hub⟩
          · by_cases hstop : ce - o.overlap ≤ bs ∨ pc.length ≤ ce
            · rw [if_pos hstop] at hc; simp at hc
            · rw [if_neg hstop] at hc
              exact ih _ (ci + 1) pn c hc
    · rw [if_neg h1] at hc; simp at hc

theorem chunkLoopB_mem_spec (pc : List Nat) (o : ChunkOptions)
    (fuel bs ci pn : Nat) (c : DocumentChunk) (hc : c ∈ chunkLoopB pc o pn fuel bs ci) :
    ∃ u v, c.text = trimBytes (sliceBytes pc u v) ∧ c.text ≠ [] ∧
      (∃ i, u = find_char_boundary pc i) ∧ (∃ j, v = find_char_boundary pc j) ∧
      u ≤ v ∧ v ≤ find_char_boundary pc (min (u + o.max_chunk_size) pc.length) := by
  rw [← chunkLoopA_eq_chunkLoopB] at hc
  exact chunkLoopA_mem_spec pc o fuel bs ci pn c hc

/-! Claim theorems. -/

/-- Claim C2: for every page text, every overlap value and every
`max_chunk_size > 0` (including `overlap ≥ max_chunk_size`), the
chunk-splitting loop of `oxidize_extract_chunks` terminates: its step-indexed
unrolling is stable at the computable iteration bound `pc.length + 1`, i.e.
giving the loop any larger iteration budget produces the same result. -/
theorem claim_C2_loop_terminates (pc : List Nat) (o : ChunkOptions) (pn ci fuel : Nat)
    (hmax : 0 < o.max_chunk_size) (hfuel : pc.length + 1 ≤ fuel) :
    chunkLoopA pc o pn fuel 0 ci = chunkLoopA pc o pn (pc.length + 1) 0 ci :=
  chunkLoopA_fuel_irrel pc o pn fuel (pc.length + 1) 0 ci (by omega) (by omega)

/-- Claim C2, witness: the termination theorem instantiated at a concrete
page and fuel. -/
theorem claim_C2_witness :
    0 < defaultChunkOptions.max_chunk_size ∧ ([97, 98, 99] : List Nat).length + 1 ≤ 10 ∧
    chunkLoopA [97, 98, 99] defaultChunkOptions 1 10 0 0 =
      chunkLoopA [97, 98, 99] defaultChunkOptions 1 (([97, 98, 99] : List Nat).length + 1) 0 0 :=
  ⟨by decide, by decide,
    claim_C2_loop_terminates [97, 98, 99] defaultChunkOptions 1 0 10 (by decide) (by decide)⟩

/-- Claim C6: on the page-scoped entry points, a `page_number` of 0 or
strictly greater than the parsed document's page count yields the
`PdfParseError` status and a null output location. -/
theorem claim_C6_page_out_of_range
    (parse : Except String (List (List Nat)))
    (ser : List DocumentChunk → Except String (List Nat))
    (pdf_len page_number : Nat) (options : Option ChunkOptions)
    (out : OutLoc (List Nat)) (e0 : Option String) (pages : List (List Nat))
    (hout : out.isNull = false) (hp : parse = .ok pages)
    (hrange : page_number = 0 ∨ pages.length < page_number) :
    ((oxidize_extract_text_from_page parse false pdf_len page_number out e0).status =
        .PdfParseError ∧
      (oxidize_extract_text_from_page parse false pdf_len page_number out e0).out.value =
        none) ∧
    ((oxidize_extract_chunks_from_page parse ser false pdf_len page_number options out
        e0).status = .PdfParseError ∧
      (oxidize_extract_chunks_from_page parse ser false pdf_len page_number options out
        e0).out.value = none) := by
  subst hp
  constructor
  · by_cases hl : pdf_len = 0
    · simp [oxidize_extract_text_from_page, hout, hl]
    · rcases hrange with h0 | hgt
      · simp [oxidize_extract_text_from_page, hout, hl, h0]
      · by_cases h0 : page_number = 0
        · omega
        · have hr : pages.length ≤ page_number - 1 := by omega
          simp [oxidize_extract_text_from_page, hout, hl, h0, hr]
  · by_cases hl : pdf_len = 0
    · simp [oxidize_extract_chunks_from_page, hout, hl]
    · rcases hrange with h0 | hgt
      · simp [oxidize_extract_chunks_from_page, hout, hl, h0]
      · by_cases h0 : page_number = 0
        · omega
        · have hr : pages.length ≤ page_number - 1 := by omega
          simp [oxidize_extract_chunks_from_page, hout, hl, h0, hr]

/-- Claim C6, witness: the theorem instantiated with a one-page document and
`page_number = 5`. -/
theorem claim_C6_witness :
    ((oxidize_extract_text_from_page (.ok [[104]]) false 3 5 ⟨false, none⟩ none).status =
        .PdfParseError ∧
      (oxidize_extract_text_from_page (.ok [[104]]) false 3 5 ⟨false, none⟩ none).out.value =
        none) ∧
    ((oxidize_extract_chunks_from_page (.ok [[104]]) (fun _ => .ok []) false 3 5 none
        ⟨false, none⟩ none).status = .PdfParseError ∧
      (oxidize_extract_chunks_from_page (.ok [[104]]) (fun _ => .ok []) false 3 5 none
        ⟨false, none⟩ none).out.value = none) :=
  claim_C6_page_out_of_range (.ok [[104]]) (fun _ => .ok []) 3 5 none ⟨false, none⟩ none
    [[104]] (by decide) rfl (by decide)

/-- Claim C7, counterexample: `oxidize_extract_text` called with a null
`pdf_bytes` pointer but a live output location returns a non-`Success`
status while leaving the output location's previous (stale) content in
place, because the null-pointer check runs before the output
pre-initialization (lib.rs 133-139). -/
theorem claim_C7_counterexample :
    (oxidize_extract_text (.ok [[104]]) true 1 ⟨false, some [55]⟩ none).status ≠
      ErrorCode.Success ∧
    (oxidize_extract_text (.ok [[104]]) true 1 ⟨false, some [55]⟩ none).out.value =
      some [55] := by
  constructor
  · decide
  · rfl

/-- Claim C7, amended: on every entry point with an output location, when
all required pointers are non-null (so the call reaches its output
pre-initialization step), every status other than `Success` leaves the
output location at its empty sentinel: null for the five buffer-returning
entry points, and the count 0 for `oxidize_get_page_count` (whose output
slot is a `usize` pre-initialized to 0, lib.rs 373).  The unamended claim
fails on the null-pointer early return, which leaves outputs untouched. -/
theorem claim_C7_outputs_empty_on_failure
    (parse : Except String (List (List Nat)))
    (ser : List DocumentChunk → Except String (List Nat))
    (pdf_len page_number : Nat) (options : Option ChunkOptions)
    (version : List Nat) (out : OutLoc (List Nat)) (outn : OutLoc Nat)
    (e0 : Option String) (hout : out.isNull = false) (houtn : outn.isNull = false) :
    ((oxidize_extract_text parse false pdf_len out e0).status ≠ ErrorCode.Success →
      (oxidize_extract_text parse false pdf_len out e0).out.value = none) ∧
    ((oxidize_extract_chunks parse ser false pdf_len options out e0).status ≠
        ErrorCode.Success →
      (oxidize_extract_chunks parse ser false pdf_len options out e0).out.value = none) ∧
    ((oxidize_extract_chunks_from_page parse ser false pdf_len page_number options out
        e0).status ≠ ErrorCode.Success →
      (oxidize_extract_chunks_from_page parse ser false pdf_len page_number options out
        e0).out.value = none) ∧
    ((oxidize_extract_text_from_page parse false pdf_len page_number out e0).status ≠
        ErrorCode.Success →
      (oxidize_extract_text_from_page parse false pdf_len page_number out
        e0).out.value = none) ∧
    ((oxidize_get_page_count parse false pdf_len outn e0).status ≠ ErrorCode.Success →
      (oxidize_get_page_count parse false pdf_len outn e0).out.value = some 0) ∧
    ((oxidize_version version out e0).status ≠ ErrorCode.Success →
      (oxidize_version version out e0).out.value = none) := by
  refine ⟨?_, ?_, ?_, ?_, ?_, ?_⟩
  · by_cases hl : pdf_len = 0
    · simp [oxidize_extract_text, hout, hl]
    · cases parse with
      | error e => simp [oxidize_extract_text, hout, hl]
      | ok pages =>
        by_cases hz : (0 : Nat) ∈ List.intercalate [10, 10] pages
        · simp [oxidize_extract_text, hout, hl, hz]
        · simp [oxidize_extract_text, hout, hl, hz]
  · by_cases hl : pdf_len = 0
    · simp [oxidize_extract_chunks, hout, hl]
    · cases parse with
      | error e => simp [oxidize_extract_chunks, hout, hl]
      | ok pages =>
        cases hser : ser (pagesChunks (options.getD defaultChunkOptions) pages 0 0) with
        | error e => simp [oxidize_extract_chunks, hout, hl, hser]
        | ok json =>
          by_cases hz : (0 : Nat) ∈ json
          · simp [oxidize_extract_chunks, hout, hl, hser, hz]
          · simp [oxidize_extract_chunks, hout, hl, hser, hz]
  · by_cases hl : pdf_len = 0
    · simp [oxidize_extract_chunks_from_page, hout, hl]
    · by_cases hp0 : page_number = 0
      · simp [oxidize_extract_chunks_from_page, hout, hl, hp0]
      · cases parse with
        | error e => simp [oxidize_extract_chunks_from_page, hout, hl, hp0]
        | ok pages =>
          by_cases hrange : pages.length ≤ page_number - 1
          · simp [oxidize_extract_chunks_from_page, hout, hl, hp0, hrange]
          · cases hser : ser (chunkLoopB ((pages[page_number - 1]?).getD [])
                (options.getD defaultChunkOptions) page_number
                (((pages[page_number - 1]?).getD []).length + 1) 0 0) with
            | error e =>
              simp [oxidize_extract_chunks_from_page, hout, hl, hp0, hrange, hser]
            | ok json =>
              by_cases hz : (0 : Nat) ∈ json
              · simp [oxidize_extract_chunks_from_page, hout, hl, hp0, hrange, hser, hz]
              · simp [oxidize_extract_chunks_from_page, hout, hl, hp0, hrange, hser, hz]
  · by_cases hl : pdf_len = 0
    · simp [oxidize_extract_text_from_page, hout, hl]
    · by_cases hp0 : page_number = 0
      · simp [oxidize_extract_text_from_page, hout, hl, hp0]
      · cases parse with
        | error e => simp [oxidize_extract_text_from_page, hout, hl, hp0]
        | ok pages =>
          by_cases hrange : pages.length ≤ page_number - 1
          · simp [oxidize_extract_text_from_page, hout, hl, hp0, hrange]
          · by_cases hz : (0 : Nat) ∈ (pages[page_number - 1]?).getD []
            · simp [oxidize_extract_text_from_page, hout, hl, hp0, hrange, hz]
            · simp [oxidize_extract_text_from_page, hout, hl, hp0, hrange, hz]
  · by_cases hl : pdf_len = 0
    · simp [oxidize_get_page_count, houtn, hl]
    · cases parse with
      | error e => simp [oxidize_get_page_count, houtn, hl]
      | ok pages => simp [oxidize_get_page_count, houtn, hl]
  · by_cases hz : (0 : Nat) ∈ version
    · simp [oxidize_version, hout, hz]
    · simp [oxidize_version, hout, hz]

/-- Claim C7, amended witness: the amended theorem instantiated at non-null
output locations, once for each of the six entry points. -/
theorem claim_C7_witness :
    (((oxidize_extract_text (.ok [[104]]) false 0 ⟨false, some [55]⟩ none).status ≠
        ErrorCode.Success →
      (oxidize_extract_text (.ok [[104]]) false 0 ⟨false, some [55]⟩ none).out.value =
        none)) ∧
    (((oxidize_extract_chunks (.ok [[104]]) (fun _ => .ok []) false 0 none
        ⟨false, some [55]⟩ none).status ≠ ErrorCode.Success →
      (oxidize_extract_chunks (.ok [[104]]) (fun _ => .ok []) false 0 none
        ⟨false, some [55]⟩ none).out.value = none)) ∧
    (((oxidize_extract_chunks_from_page (.ok [[104]]) (fun _ => .ok []) false 0 7 none
        ⟨false, some [55]⟩ none).status ≠ ErrorCode.Success →
      (oxidize_extract_chunks_from_page (.ok [[104]]) (fun _ => .ok []) false 0 7 none
        ⟨false, some [55]⟩ none).out.value = none)) ∧
    (((oxidize_extract_text_from_page (.ok [[104]]) false 0 7
        ⟨false, some [55]⟩ none).status ≠ ErrorCode.Success →
      (oxidize_extract_text_from_page (.ok [[104]]) false 0 7
        ⟨false, some [55]⟩ none).out.value = none)) ∧
    (((oxidize_get_page_count (.ok [[104]]) false 0 ⟨false, some 9⟩ none).status ≠
        ErrorCode.Success →
      (oxidize_get_page_count (.ok [[104]]) false 0 ⟨false, some 9⟩ none).out.value =
        some 0)) ∧
    (((oxidize_version [118] ⟨false, some [55]⟩ none).status ≠ ErrorCode.Success →
      (oxidize_version [118] ⟨false, some [55]⟩ none).out.value = none)) :=
  claim_C7_outputs_empty_on_failure (.ok [[104]]) (fun _ => .ok []) 0 7 none [118]
    ⟨false, some [55]⟩ ⟨false, some 9⟩ none (by decide) (by decide)

/-- Claim C8, counterexample: `oxidize_version` (lib.rs 642-663) never calls
`clear_last_error()`, so a diagnostic recorded before the call is still the
retrievable diagnostic after it: the call's outcome depends on the previous
thread-local state, and after a successful `oxidize_version` the diagnostic
does not reflect only that call. -/
theorem claim_C8_counterexample :
    (oxidize_version [118] ⟨false, none⟩ (some "previous error")).err =
      some "previous error" ∧
    (oxidize_version [118] ⟨false, none⟩ none).err = none := by
  constructor
  · rfl
  · rfl

/-- Claim C8, amended: the five other entry points (extract-all-text,
extract-chunks, get-page-count, extract-text-for-one-page,
extract-chunks-for-one-page) clear the recorded diagnostic as their first
step, so their entire result is independent of the incoming thread-local
diagnostic; `oxidize_version` is excluded because it never clears it. -/
theorem claim_C8_entries_clear_diagnostic
    (parse : Except String (List (List Nat)))
    (ser : List DocumentChunk → Except String (List Nat))
    (pdf_null : Bool) (pdf_len page_number : Nat) (options : Option ChunkOptions)
    (out : OutLoc (List Nat)) (outn : OutLoc Nat) (e1 e2 : Option String) :
    oxidize_extract_text parse pdf_null pdf_len out e1 =
      oxidize_extract_text parse pdf_null pdf_len out e2 ∧
    oxidize_extract_chunks parse ser pdf_null pdf_len options out e1 =
      oxidize_extract_chunks parse ser pdf_null pdf_len options out e2 ∧
    oxidize_get_page_count parse pdf_null pdf_len outn e1 =
      oxidize_get_page_count parse pdf_null pdf_len outn e2 ∧
    oxidize_extract_text_from_page parse pdf_null pdf_len page_number out e1 =
      oxidize_extract_text_from_page parse pdf_null pdf_len page_number out e2 ∧
    oxidize_extract_chunks_from_page parse ser pdf_null pdf_len page_number options out e1 =
      oxidize_extract_chunks_from_page parse ser pdf_null pdf_len page_number options out e2 :=
  ⟨rfl, rfl, rfl, rfl, rfl⟩

/-- Claim C9: releasing a null buffer handle through `oxidize_free_string`
is a safe no-op: the heap of live allocations and the recorded diagnostic
are returned unchanged. -/
theorem claim_C9_free_null_noop (heap : List Nat) (err0 : Option String) :
    oxidize_free_string none heap err0 = (heap, err0) := rfl

/-- Claim C10: the chunking loop duplicated in `oxidize_extract_chunks`
(`chunkLoopA`) and `oxidize_extract_chunks_from_page` (`chunkLoopB`) emit
exactly the same chunk texts in the same order on the same page text and
configuration; the whole-document loop's chunks are the page-scoped loop's
chunks with the global starting index added and the page-number tag
replaced. -/
theorem claim_C10_duplicated_loops_equivalent (pc : List Nat) (o : ChunkOptions)
    (pn pn' fuel bs ci : Nat) :
    chunkLoopA pc o pn fuel bs ci =
      (chunkLoopB pc o pn' fuel bs 0).map
        (fun c => { index := c.index + ci, page_number := pn, text := c.text }) := by
  rw [chunkLoopA_eq_chunkLoopB pc o pn fuel bs ci]
  exact chunkLoopB_shift pc o fuel bs ci pn pn'

/-- Claim C1: for every valid UTF-8 page text and every configuration, every
chunk emitted by the chunking loop of `oxidize_extract_chunks`
(`chunkLoopA`) or of `oxidize_extract_chunks_from_page` (`chunkLoopB`) has a
text that is a non-empty, whitespace-trimmed (trimming it again changes
nothing), valid UTF-8, contiguous substring (infix) of the original page
text. -/
theorem claim_C1_chunk_text_substring (pc : List Nat) (o : ChunkOptions)
    (pn fuel bs ci : Nat) (hv : utf8ValidB pc = true) :
    (∀ c ∈ chunkLoopA pc o pn fuel bs ci, c.text ≠ [] ∧ c.text <:+: pc ∧
      trimBytes c.text = c.text ∧ utf8ValidB c.text = true) ∧
    (∀ c ∈ chunkLoopB pc o pn fuel bs ci, c.text ≠ [] ∧ c.text <:+: pc ∧
      trimBytes c.text = c.text ∧ utf8ValidB c.text = true) := by
  have main : ∀ c ∈ chunkLoopA pc o pn fuel bs ci, c.text ≠ [] ∧ c.text <:+: pc ∧
      trimBytes c.text = c.text ∧ utf8ValidB c.text = true := by
    intro c hc
    obtain ⟨u, v, htext, hne, ⟨i, hu⟩, ⟨j, hvv⟩, huv, hub⟩ :=
      chunkLoopA_mem_spec pc o fuel bs ci pn c hc
    have hbu : IsBoundary pc u := by rw [hu]; exact fcb_isBoundary hv i
    have hbv : IsBoundary pc v := by rw [hvv]; exact fcb_isBoundary hv j
    have hsv : utf8ValidB (sliceBytes pc u v) = true := slice_valid hv hbu hbv
    refine ⟨hne, ?_, ?_, ?_⟩
    · rw [htext]
      exact (trimBytes_isInfixOf _).trans (slice_isInfixOf pc u v)
    · rw [htext]
      exact trimBytes_idem hsv
    · rw [htext]
      exact trimBytes_valid hsv
  refine ⟨main, ?_⟩
  intro c hc
  rw [← chunkLoopA_eq_chunkLoopB] at hc
  exact main c hc

/-- Claim C1, witness: the theorem instantiated on the ASCII page "hi." with
the default configuration. -/
theorem claim_C1_witness :
    utf8ValidB [104, 105, 46] = true ∧
    ((∀ c ∈ chunkLoopA [104, 105, 46] defaultChunkOptions 1 4 0 0,
        c.text ≠ [] ∧ c.text <:+: [104, 105, 46] ∧
        trimBytes c.text = c.text ∧ utf8ValidB c.text = true) ∧
      (∀ c ∈ chunkLoopB [104, 105, 46] defaultChunkOptions 1 4 0 0,
        c.text ≠ [] ∧ c.text <:+: [104, 105, 46] ∧
        trimBytes c.text = c.text ∧ utf8ValidB c.text = true)) :=
  ⟨by decide,
    claim_C1_chunk_text_substring [104, 105, 46] defaultChunkOptions 1 4 0 0 (by decide)⟩

/-- Claim C4, counterexample: the claim's second conjunct ("the returned
value is always greater than or equal to i") is false once `i` exceeds the
string's length: on the valid UTF-8 string "a" with `i = 2`,
`find_char_boundary` returns the length 1, which is smaller than `i`. -/
theorem claim_C4_counterexample :
    utf8ValidB [97] = true ∧ find_char_boundary [97] 2 = 1 ∧
    ¬ 2 ≤ find_char_boundary [97] 2 := by
  decide

/-- Claim C4, amended: `find_char_boundary s i` returns `length s` whenever
`i ≥ length s`; its result is at least `i` whenever `i ≤ length s` (rather
than for every `i`); and on valid UTF-8 the result is always a character
boundary, never a position strictly inside a multi-byte code point. -/
theorem claim_C4_boundary_finder (s : List Nat) (i : Nat) :
    (s.length ≤ i → find_char_boundary s i = s.length) ∧
    (i ≤ s.length → i ≤ find_char_boundary s i) ∧
    (utf8ValidB s = true → IsBoundary s (find_char_boundary s i)) :=
  ⟨fun h => fcb_of_le h, fun h => fcb_ge h, fun hv => fcb_isBoundary hv i⟩

/-- Claim C4, witness: the amended theorem instantiated on the two-byte
character "é" at index 1 (strictly inside the code point). -/
theorem claim_C4_witness :
    (([195, 169] : List Nat).length ≤ 1 →
      find_char_boundary [195, 169] 1 = ([195, 169] : List Nat).length) ∧
    (1 ≤ ([195, 169] : List Nat).length → 1 ≤ find_char_boundary [195, 169] 1) ∧
    (utf8ValidB [195, 169] = true →
      IsBoundary [195, 169] (find_char_boundary [195, 169] 1)) :=
  claim_C4_boundary_finder [195, 169] 1

/-- Claim C5, counterexample: `max_chunk_size` is not a hard cap on the
emitted chunk's byte length.  On the valid UTF-8 page "é" (two bytes) with
`max_chunk_size = 1 > 0`, the boundary snap moves the window end past the
requested size and the single emitted chunk has byte length 2 > 1. -/
theorem claim_C5_counterexample :
    utf8ValidB [195, 169] = true ∧ 0 < (1 : Nat) ∧
    ¬ ∀ c ∈ chunkLoopB [195, 169]
        { max_chunk_size := 1, overlap := 0,
          preserve_sentence_boundaries := true, include_metadata := true } 1 3 0 0,
        c.text.length ≤ 1 := by
  decide

/-- Claim C5, amended: on valid UTF-8 pages, every chunk emitted by either
chunking loop has byte length at most `max_chunk_size + 3`: the sentence
search can only shorten the window, and the only step that lengthens it is
the character-boundary snap, which adds at most 3 bytes (the longest run of
continuation bytes in valid UTF-8). -/
theorem claim_C5_chunk_size_bound (pc : List Nat) (o : ChunkOptions)
    (pn fuel bs ci : Nat) (hv : utf8ValidB pc = true) :
    (∀ c ∈ chunkLoopA pc o pn fuel bs ci, c.text.length ≤ o.max_chunk_size + 3) ∧
    (∀ c ∈ chunkLoopB pc o pn fuel bs ci, c.text.length ≤ o.max_chunk_size + 3) := by
  have main : ∀ c ∈ chunkLoopA pc o pn fuel bs ci,
      c.text.length ≤ o.max_chunk_size + 3 := by
    intro c hc
    obtain ⟨u, v, htext, hne, ⟨i, hu⟩, ⟨j, hvv⟩, huv, hub⟩ :=
      chunkLoopA_mem_spec pc o fuel bs ci pn c hc
    have h3 : find_char_boundary pc (min (u + o.max_chunk_size) pc.length) ≤
        min (u + o.max_chunk_size) pc.length + 3 := fcb_le_add_three hv _
    have hlen : c.text.length ≤ v - u := by
      rw [htext]
      calc (trimBytes (sliceBytes pc u v)).length
          ≤ (sliceBytes pc u v).length := trimBytes_length_le _
        _ ≤ v - u := slice_length_le pc u v
    omega
  refine ⟨main, ?_⟩
  intro c hc
  rw [← chunkLoopA_eq_chunkLoopB] at hc
  exact main c hc

/-- Claim C5, amended witness: the bound instantiated on the page "é" with
`max_chunk_size = 1` (where the chunk length is 2 ≤ 1 + 3). -/
theorem claim_C5_witness :
    utf8ValidB [195, 169] = true ∧
    ((∀ c ∈ chunkLoopA [195, 169]
        { max_chunk_size := 1, overlap := 0,
          preserve_sentence_boundaries := true, include_metadata := true } 1 3 0 0,
        c.text.length ≤ 1 + 3) ∧
      (∀ c ∈ chunkLoopB [195, 169]
        { max_chunk_size := 1, overlap := 0,
          preserve_sentence_boundaries := true, include_metadata := true } 1 3 0 0,
        c.text.length ≤ 1 + 3)) :=
  ⟨by decide,
    claim_C5_chunk_size_bound [195, 169]
      { max_chunk_size := 1, overlap := 0,
        preserve_sentence_boundaries := true, include_metadata := true } 1 3 0 0 (by decide)⟩

/-! Helpers for the concrete sentence-boundary scenario (claim C3). -/

theorem fcb_ascii {s : List Nat} (hascii : ∀ b ∈ s, b < 128) (i : Nat) :
    find_char_boundary s i = min i s.length := by
  by_cases h1 : s.length ≤ i
  · rw [fcb_of_le h1]; omega
  · by_cases h2 : i = 0
    · subst h2; rw [fcb_zero]; omega
    · rw [fcb_eq_add h1 h2]
      have hz : countCont (s.drop i) = 0 := by
        cases hd : s.drop i with
        | nil => rfl
        | cons b t =>
          have hb : b ∈ s := by
            have hmem : b ∈ s.drop i := by rw [hd]; exact List.mem_cons_self b t
            exact List.drop_subset _ _ hmem
          exact countCont_cons_false (isCont_false_of_lt (hascii b hb)) t
      rw [hz]
      omega

theorem rfindPunct_none {l : List Nat} (h : ∀ b ∈ l, isPunct b = false) :
    rfindPunct l = none := by
  induction l with
  | nil => rfl
  | cons b r ih =>
    simp only [rfindPunct, ih (fun x hx => h x (List.mem_cons_of_mem b hx)),
      h b (List.mem_cons_self b r)]
    simp

theorem getD_eq_getElem_of_lt {l : List Nat} {k : Nat} (h : k < l.length) :
    l.getD k 0 = l[k] := by
  simp [List.getD, List.getElem?_eq_getElem h]

theorem getD_mem_of_lt {l : List Nat} {k : Nat} (h : k < l.length) : l.getD k 0 ∈ l := by
  rw [getD_eq_getElem_of_lt h]
  exact List.getElem_mem h

theorem rfindPunct_last {l : List Nat} {k : Nat} (hk : k < l.length)
    (hp : isPunct (l.getD k 0) = true)
    (hafter : ∀ j, k < j → j < l.length → isPunct (l.getD j 0) = false) :
    rfindPunct l = some k := by
  induction l generalizing k with
  | nil => simp at hk
  | cons b r ih =>
    cases k with
    | zero =>
      have hr : rfindPunct r = none := by
        apply rfindPunct_none
        intro x hx
        obtain ⟨j, hj, hxj⟩ := List.mem_iff_getElem.mp hx
        have := hafter (j + 1) (by omega) (by simp; omega)
        rw [List.getD_cons_succ, getD_eq_getElem_of_lt hj, hxj] at this
        exact this
      rw [List.getD_cons_zero] at hp
      simp only [rfindPunct, hr, hp]
      simp
    | succ k =>
      have hrec : rfindPunct r = some k := by
        apply ih
        · simp at hk; omega
        · rw [List.getD_cons_succ] at hp; exact hp
        · intro j hj hjl
          have := hafter (j + 1) (by omega) (by simp; omega)
          rw [List.getD_cons_succ] at this
          exact this
      simp only [rfindPunct, hrec]

theorem sliceBytes_getD {s : List Nat} {a b k : Nat} (h : a + k < b) (hb : b ≤ s.length) :
    (sliceBytes s a b).getD k 0 = s.getD (a + k) 0 := by
  rw [sliceBytes, getD_drop]
  have hlt : a + k < (s.take b).length := by
    rw [List.length_take]
    omega
  have hlt2 : a + k < s.length := by omega
  rw [getD_eq_getElem_of_lt hlt, getD_eq_getElem_of_lt hlt2, List.getElem_take]

theorem sliceBytes_length {s : List Nat} {a b : Nat} (hb : b ≤ s.length) :
    (sliceBytes s a b).length = b - a := by
  simp only [sliceBytes, List.length_drop, List.length_take]
  omega

theorem trimBytes_ne_nil_ascii {s : List Nat} (b : Nat) (hascii : ∀ x ∈ s, x < 128)
    (hb : b ∈ s) (hws : isWhitespaceCp b = false) :
    trimBytes s ≠ [] := by
  have hg : (some b, [b]) ∈ utf8Groups s := by
    rw [utf8Groups_ascii hascii]
    exact List.mem_map_of_mem _ hb
  exact trimBytes_ne_nil hg (by simp [isWsGroup, hws])

/-- Claim C3: on any page of exactly 600 ASCII bytes whose only
`.`/`!`/`?` byte is a period at offset 500, chunking with the default
configuration (`max_chunk_size = 512`, `overlap = 50`,
`preserve_sentence_boundaries = true`) emits exactly two chunks: the first
covers bytes `[0, 501)` — its end offset 501 is just after the period at
byte 500, not at byte 512 — and the second starts at byte 451 ≤ 500 and
covers `[451, 600)`.  The second conjunct ties the recorded spans to the
texts emitted by the `oxidize_extract_chunks` loop itself. -/
theorem claim_C3_sentence_boundary (pc : List Nat) (pn ci : Nat)
    (hlen : pc.length = 600) (hascii : ∀ b ∈ pc, b < 128)
    (hdot : pc.getD 500 0 = 46)
    (hnop : ∀ i, i < 600 → i ≠ 500 → isPunct (pc.getD i 0) = false) :
    chunkLoopSpans pc defaultChunkOptions (pc.length + 1) 0 = [(0, 501), (451, 600)] ∧
    (chunkLoopA pc defaultChunkOptions pn (pc.length + 1) 0 ci).map (fun c => c.text) =
      [trimBytes (sliceBytes pc 0 501), trimBytes (sliceBytes pc 451 600)] := by
  have hfcb : ∀ i, find_char_boundary pc i = min i 600 := by
    intro i
    rw [fcb_ascii hascii, hlen]
  have hst1 : find_char_boundary pc 0 = 0 := by rw [hfcb]; omega
  have hst2 : find_char_boundary pc 451 = 451 := by rw [hfcb]; omega
  have hr : rfindPunct (sliceBytes pc 409 512) = some 91 := by
    apply rfindPunct_last
    · rw [sliceBytes_length (by omega)]; omega
    · rw [sliceBytes_getD (by omega) (by omega)]
      rw [show 409 + 91 = 500 by omega, hdot]
      decide
    · intro j hj hjl
      rw [sliceBytes_length (by omega)] at hjl
      rw [sliceBytes_getD (by omega) (by omega)]
      exact hnop (409 + j) (by omega) (by omega)
  have hce1 : chunkEndOf pc defaultChunkOptions 0 = 501 := by
    rw [chunkEndOf]
    simp only [defaultChunkOptions, hlen, hfcb]
    norm_num
    rw [hr]
    norm_num
  have hce2 : chunkEndOf pc defaultChunkOptions 451 = 600 := by
    rw [chunkEndOf]
    simp only [defaultChunkOptions, hlen, hfcb]
    norm_num
  have hct1 : trimBytes (sliceBytes pc 0 501) ≠ [] := by
    apply trimBytes_ne_nil_ascii 46
      (fun b hb => hascii b ((slice_isInfixOf pc 0 501).subset hb))
    · have h46 : (sliceBytes pc 0 501).getD 500 0 = 46 := by
        rw [sliceBytes_getD (by omega) (by omega)]
        exact hdot
      rw [← h46]
      apply getD_mem_of_lt
      rw [sliceBytes_length (by omega)]
      omega
    · decide
  have hct2 : trimBytes (sliceBytes pc 451 600) ≠ [] := by
    apply trimBytes_ne_nil_ascii 46
      (fun b hb => hascii b ((slice_isInfixOf pc 451 600).subset hb))
    · have h46 : (sliceBytes pc 451 600).getD 49 0 = 46 := by
        rw [sliceBytes_getD (by omega) (by omega)]
        rw [show 451 + 49 = 500 by omega]
        exact hdot
      rw [← h46]
      apply getD_mem_of_lt
      rw [sliceBytes_length (by omega)]
      omega
    · decide
  have hspans : chunkLoopSpans pc defaultChunkOptions (pc.length + 1) 0 =
      [(0, 501), (451, 600)] := by
    rw [hlen, chunkLoopSpans_succ, hlen, hst1, hce1]
    rw [if_pos (by omega : (0 : Nat) < 600)]
    rw [if_neg (by omega : ¬ (600 : Nat) ≤ 0)]
    rw [if_neg hct1]
    rw [if_neg (show ¬ ((501 : Nat) - defaultChunkOptions.overlap ≤ 0 ∨
      (600 : Nat) ≤ 501) by simp [defaultChunkOptions])]
    have hns : (501 : Nat) - defaultChunkOptions.overlap = 451 := by
      simp [defaultChunkOptions]
    rw [hns]
    have h600 : (600 : Nat) = 599 + 1 := rfl
    rw [h600, chunkLoopSpans_succ, hlen, hst2, hce2]
    rw [if_pos (by omega : (451 : Nat) < 600)]
    rw [if_neg (by omega : ¬ (600 : Nat) ≤ 451)]
    rw [if_neg hct2]
    rw [if_pos (show ((600 : Nat) - defaultChunkOptions.overlap ≤ 451 ∨
      (600 : Nat) ≤ 600) from Or.inr (by omega))]
  refine ⟨hspans, ?_⟩
  have hmap := chunkLoopSpans_map_text pc defaultChunkOptions (pc.length + 1) 0 ci pn
  rw [hspans] at hmap
  rw [← hmap]
  rfl

/-- Claim C3, witness: the theorem instantiated on the concrete page of 500
letters `a`, one period, and 99 more letters `a`. -/
theorem claim_C3_witness :
    (List.replicate 500 97 ++ 46 :: List.replicate 99 97 : List Nat).length = 600 ∧
    chunkLoopSpans (List.replicate 500 97 ++ 46 :: List.replicate 99 97)
        defaultChunkOptions
        ((List.replicate 500 97 ++ 46 :: List.replicate 99 97 : List Nat).length + 1) 0 =
      [(0, 501), (451, 600)] ∧
    (chunkLoopA (List.replicate 500 97 ++ 46 :: List.replicate 99 97)
        defaultChunkOptions 1
        ((List.replicate 500 97 ++ 46 :: List.replicate 99 97 : List Nat).length + 1) 0
        0).map (fun c => c.text) =
      [trimBytes (sliceBytes (List.replicate 500 97 ++ 46 :: List.replicate 99 97) 0 501),
       trimBytes (sliceBytes (List.replicate 500 97 ++ 46 :: List.replicate 99 97) 451 600)] := by
  have h := claim_C3_sentence_boundary
    (List.replicate 500 97 ++ 46 :: List.replicate 99 97) 1 0
    (by decide) (by decide) (by decide) (by decide)
  exact ⟨by decide, h.1, h.2⟩
